import Mathlib

/-!
Shallow embedding of the intrusive binary-search-tree core (`TreeIn.hpp`),
the balancing primitives (`BalTreeIn.hpp`) and the AA-tree balancer
(`AATreeIn.hpp`) of the containers repository, together with proofs about
the embedded operations.

Nodes are addressed by stable natural-number identifiers; the pointer
fields `m_root`, `m_parent`, `m_left`, `m_right` of `TreeInNode` become
`Option Nat` fields of a per-node record, and a state maps every node id
to its record and every tree id to its `m_base` pointer.  The
caller-supplied comparators are instantiated with an integer key per node,
following the contract documented in `TreeIn.h` (`compare(node1, node2)`
is positive exactly when `node2 > node1`, and `compareKey(node, key)` is
positive exactly when `key > node`).  Loops of the C++ source become
fuelled recursions; every lemma either supplies enough fuel explicitly or
assumes it.
-/

namespace TreeIn

/-- Record of the linkage fields of one `TreeInNode` (`m_root`, `m_parent`,
`m_left`, `m_right`), the AA `level` field of `AATreeInNode`, and the user
key that drives the comparators. -/
structure NodeData where
  root   : Option Nat
  parent : Option Nat
  left   : Option Nat
  right  : Option Nat
  key    : Int
  level  : Nat
  deriving DecidableEq

/-- Whole-memory state: the record of every node id, and the `m_base`
pointer of every tree id. -/
structure State where
  node : Nat → NodeData
  base : Nat → Option Nat

/-- Update the record of node `i` by `f`, leaving all other nodes alone. -/
def updNode (s : State) (i : Nat) (f : NodeData → NodeData) : State :=
  { s with node := fun j => if j = i then f (s.node j) else s.node j }

/-- Write the `m_parent` field of node `i`. -/
def setParent (s : State) (i : Nat) (v : Option Nat) : State :=
  updNode s i fun d => { d with parent := v }

/-- Write the `m_left` field of node `i`. -/
def setLeft (s : State) (i : Nat) (v : Option Nat) : State :=
  updNode s i fun d => { d with left := v }

/-- Write the `m_right` field of node `i`. -/
def setRight (s : State) (i : Nat) (v : Option Nat) : State :=
  updNode s i fun d => { d with right := v }

/-- Write the AA `level` field of node `i`. -/
def setLevel (s : State) (i : Nat) (v : Nat) : State :=
  updNode s i fun d => { d with level := v }

/-- Write the `m_base` pointer of tree `r`. -/
def setBase (s : State) (r : Nat) (b : Option Nat) : State :=
  { s with base := fun q => if q = r then b else s.base q }

/-- Embeds the user comparator `TreeInRoot::compare(node1, node2)` with
integer keys, per its documented contract in `TreeIn.h`: positive when
`node2 > node1`, negative when `node2 < node1`, zero when equal. -/
def nodeCompare (s : State) (a b : Nat) : Int :=
  if (s.node a).key < (s.node b).key then 1
  else if (s.node b).key < (s.node a).key then -1
  else 0

/-- Embeds the user comparator `TreeInRoot::compareKey(node, key)` with
integer keys, per its documented contract in `TreeIn.h`: positive when
`key > node`, negative when `key < node`, zero when equal. -/
def keyCompare (s : State) (a : Nat) (k : Int) : Int :=
  if (s.node a).key < k then 1
  else if k < (s.node a).key then -1
  else 0

/-- Leftmost descent, the loop `while (mynode->m_left) ...` shared by
`TreeInNode::next`, `TreeInRoot::first` and the checks; fuelled. -/
def leftmostFrom (s : State) (fuel : Nat) (i : Nat) : Option Nat :=
  match (s.node i).left with
  | none => some i
  | some j =>
    match fuel with
    | 0 => none
    | fuel' + 1 => leftmostFrom s fuel' j

/-- Rightmost descent, the loop `while (mynode->m_right) ...` shared by
`TreeInNode::prev`, `TreeInRoot::last` and the checks; fuelled. -/
def rightmostFrom (s : State) (fuel : Nat) (i : Nat) : Option Nat :=
  match (s.node i).right with
  | none => some i
  | some j =>
    match fuel with
    | 0 => none
    | fuel' + 1 => rightmostFrom s fuel' j

/-- Ascent loop of `TreeInNode::next` (TreeIn.hpp lines 210-220): climb
parents until the node climbed from is the parent's left child. -/
def ascendNext (s : State) (fuel : Nat) (i : Nat) : Option Nat :=
  match (s.node i).parent with
  | none => none
  | some p =>
    if (s.node p).left = some i then some p
    else
      match fuel with
      | 0 => none
      | fuel' + 1 => ascendNext s fuel' p

/-- Ascent loop of `TreeInNode::prev` (TreeIn.hpp lines 245-255): climb
parents until the node climbed from is the parent's right child. -/
def ascendPrev (s : State) (fuel : Nat) (i : Nat) : Option Nat :=
  match (s.node i).parent with
  | none => none
  | some p =>
    if (s.node p).right = some i then some p
    else
      match fuel with
      | 0 => none
      | fuel' + 1 => ascendPrev s fuel' p

/-- Embeds `TreeInNode::next` (TreeIn.hpp lines 193-223). -/
def nextN (s : State) (fuel : Nat) (i : Nat) : Option Nat :=
  match (s.node i).right with
  | some r => leftmostFrom s fuel r
  | none => ascendNext s fuel i

/-- Embeds `TreeInNode::prev` (TreeIn.hpp lines 228-258). -/
def prevN (s : State) (fuel : Nat) (i : Nat) : Option Nat :=
  match (s.node i).left with
  | some l => rightmostFrom s fuel l
  | none => ascendPrev s fuel i

/-- Embeds `TreeInRoot::first` (TreeIn.hpp lines 260-272). -/
def firstN (s : State) (fuel : Nat) (r : Nat) : Option Nat :=
  match s.base r with
  | none => none
  | some b => leftmostFrom s fuel b

/-- Embeds `TreeInRoot::last` (TreeIn.hpp lines 275-287). -/
def lastN (s : State) (fuel : Nat) (r : Nat) : Option Nat :=
  match s.base r with
  | none => none
  | some b => rightmostFrom s fuel b

/-- Descent loop of `TreeInRoot::find` (TreeIn.hpp lines 542-550). -/
def findLoop (s : State) (k : Int) (fuel : Nat) (cursor : Option Nat) : Option Nat :=
  match cursor with
  | none => none
  | some c =>
    let cmp := keyCompare s c k
    if cmp = 0 then some c
    else
      match fuel with
      | 0 => none
      | fuel' + 1 =>
        if cmp < 0 then findLoop s k fuel' (s.node c).left
        else findLoop s k fuel' (s.node c).right

/-- Embeds `TreeInRoot::find` (TreeIn.hpp lines 538-553). -/
def findN (s : State) (fuel : Nat) (r : Nat) (k : Int) : Option Nat :=
  findLoop s k fuel (s.base r)

/-- Descent loop of `TreeInRoot::findMinus` (TreeIn.hpp lines 563-575):
`node` is the running candidate, `cursor` the descent position.  Faithful
to the source: the candidate is replaced by the cursor exactly when the
comparison is negative (key below cursor) and the descent then goes left;
otherwise the descent goes right with the candidate unchanged. -/
def findMinusLoop (s : State) (k : Int) (fuel : Nat) (node cursor : Option Nat) :
    Option Nat :=
  match cursor with
  | none => node
  | some c =>
    let cmp := keyCompare s c k
    if cmp = 0 then some c
    else
      match fuel with
      | 0 => none
      | fuel' + 1 =>
        if cmp < 0 then findMinusLoop s k fuel' (some c) (s.node c).left
        else findMinusLoop s k fuel' node (s.node c).right

/-- Embeds `TreeInRoot::findMinus` (TreeIn.hpp lines 558-578); both the
candidate and the cursor start at `base()`. -/
def findMinus (s : State) (fuel : Nat) (r : Nat) (k : Int) : Option Nat :=
  findMinusLoop s k fuel (s.base r) (s.base r)

/-- Descent loop of `TreeInRoot::findPlus` (TreeIn.hpp lines 589-601):
mirror of `findMinusLoop`, the candidate is replaced exactly when the
comparison is non-negative and the descent then goes right. -/
def findPlusLoop (s : State) (k : Int) (fuel : Nat) (node cursor : Option Nat) :
    Option Nat :=
  match cursor with
  | none => node
  | some c =>
    let cmp := keyCompare s c k
    if cmp = 0 then some c
    else
      match fuel with
      | 0 => none
      | fuel' + 1 =>
        if cmp < 0 then findPlusLoop s k fuel' node (s.node c).left
        else findPlusLoop s k fuel' (some c) (s.node c).right

/-- Embeds `TreeInRoot::findPlus` (TreeIn.hpp lines 584-604); both the
candidate and the cursor start at `base()`. -/
def findPlus (s : State) (fuel : Nat) (r : Nat) (k : Int) : Option Nat :=
  findPlusLoop s k fuel (s.base r) (s.base r)

/-- Splice step of `TreeInNode::remove` (TreeIn.hpp lines 343-380):
computes `newLink` and performs the pointer writes of the three-case
deletion, in source order.  Returns the pair (`newLink`, state after the
splice writes).  The fuel feeds the `prev()` call of the two-children
case. -/
def unlinkSplice (s : State) (fuel : Nat) (i : Nat) : Option Nat × State :=
  match (s.node i).left, (s.node i).right with
  | none, none => (none, s)
  | none, some rt => (some rt, s)
  | some lf, none => (some lf, s)
  | some lf, some rt =>
    match prevN s fuel i with
    | none => (none, s)
    | some nl =>
      let s1 := setRight s nl (some rt)
      let s2 := setParent s1 rt (some nl)
      if nl = lf then (some nl, s2)
      else
        let np := (s2.node nl).parent
        let nleft := (s2.node nl).left
        let s3 := match np with
                  | none => s2
                  | some p => setRight s2 p nleft
        let s4 := match nleft with
                  | none => s3
                  | some c => setParent s3 c np
        let s5 := setLeft s4 nl (some lf)
        let s6 := setParent s5 lf (some nl)
        (some nl, s6)

/-- Tail of `TreeInNode::remove` after the splice (TreeIn.hpp lines
381-401): link the replacement to the removed node's parent (read live
from the post-splice state `s2`, as the source reads `m_parent` at line
383), update the captured parent's child pointer — or the root's base —
to the replacement, and clear the removed node's links. -/
def unlinkFinish (s2 : State) (r i : Nat) (par newLink : Option Nat) : State :=
  let t2 := match newLink with
            | none => s2
            | some nlk => setParent s2 nlk ((s2.node i).parent)
  let t3 := match par with
            | some p =>
              if (t2.node p).left = some i then setLeft t2 p newLink
              else setRight t2 p newLink
            | none => setBase t2 r newLink
  updNode t3 i fun d =>
    { d with root := none, parent := none, left := none, right := none }

/-- Embeds the physical unlink of `TreeInNode::remove` (TreeIn.hpp lines
334-408) apart from the final virtual `rebalance()` hook call, which the
per-tree wrappers supply (a no-op for the plain tree).  `myparent` is
captured before the splice, exactly as the source captures
`Node* myparent = m_parent` at line 343. -/
def unlink (s : State) (fuel : Nat) (i : Nat) : State :=
  match (s.node i).root with
  | none => s
  | some r =>
    let myparent := (s.node i).parent
    let spliced := unlinkSplice s fuel i
    unlinkFinish spliced.2 r i myparent spliced.1

/-- Embeds `TreeInNode::remove` for the plain (unbalanced) tree, whose
`rebalance()` hook is the no-op default of `TreeInNode`. -/
def nodeRemovePlain (s : State) (fuel : Nat) (i : Nat) : State :=
  unlink s fuel i

/-- Embeds `TreeInRoot::remove(N&)` (TreeIn.hpp lines 416-425) for the
plain tree: the node's own `remove` runs only when the node is attached to
this very root. -/
def rootRemove (s : State) (fuel : Nat) (r : Nat) (i : Nat) : State :=
  if (s.node i).root = some r then nodeRemovePlain s fuel i else s

/-- Descent loop of `TreeInRoot::add` (TreeIn.hpp lines 457-477): walk
from `cur` comparing the visited node against the inserted node `i`; a
negative comparison (inserted key below visited key) goes left, otherwise
right, attaching `i` as the new child when the slot is free. -/
def addDescend (s : State) (i : Nat) (fuel : Nat) (cur : Nat) : State :=
  let cmp := nodeCompare s cur i
  if cmp < 0 then
    match (s.node cur).left with
    | some l =>
      match fuel with
      | 0 => s
      | fuel' + 1 => addDescend s i fuel' l
    | none => setParent (setLeft s cur (some i)) i (some cur)
  else
    match (s.node cur).right with
    | some rt =>
      match fuel with
      | 0 => s
      | fuel' + 1 => addDescend s i fuel' rt
    | none => setParent (setRight s cur (some i)) i (some cur)

/-- Attachment step shared by the `TreeInRoot::add` embeddings: the body
of TreeIn.hpp lines 455-485 after the two initial guards (descend or
become the base, then `setRoot(this)` and clear the child pointers). -/
def attach (s : State) (fuel : Nat) (r : Nat) (i : Nat) : State :=
  let s1 := match s.base r with
            | some b => addDescend s i fuel b
            | none => setParent (setBase s r (some i)) i none
  updNode s1 i fun d => { d with root := some r, left := none, right := none }

/-- Embeds `TreeInRoot::add(N&)` (TreeIn.hpp lines 449-491) for the plain
tree: no-op when already on this root, detach first when on another tree,
then attach; the trailing `rebalance()` hook is the no-op default. -/
def rootAddPlain (s : State) (fuel : Nat) (r : Nat) (i : Nat) : State :=
  if (s.node i).root = some r then s
  else
    let s0 := if (s.node i).root ≠ none then nodeRemovePlain s fuel i else s
    attach s0 fuel r i

/-- Embeds `TreeInNode::addTo(R*)` (TreeIn.hpp lines 525-532) for the
plain tree: a non-null root adds, a null root removes. -/
def addToPtr (s : State) (fuel : Nat) (i : Nat) : Option Nat → State
  | some r => rootAddPlain s fuel r i
  | none => nodeRemovePlain s fuel i

/-- Embeds `BalTreeInNode::rotateLeft` (BalTreeIn.hpp lines 174-206),
writes in source order; the source dereferences `m_right` unconditionally,
so the embedding leaves the state alone when there is no right child,
a situation the balancer never produces. -/
def rotateLeft (s : State) (i : Nat) : State :=
  match (s.node i).right with
  | none => s
  | some pivot =>
    let s1 := setRight s i ((s.node pivot).left)
    let s2 := match (s1.node i).right with
              | some b => setParent s1 b (some i)
              | none => s1
    let s3 := setParent s2 pivot ((s2.node i).parent)
    let s4 := match (s3.node pivot).parent with
              | some p =>
                if (s3.node p).left = some i then setLeft s3 p (some pivot)
                else setRight s3 p (some pivot)
              | none =>
                match (s3.node pivot).root with
                | some r => setBase s3 r (some pivot)
                | none => s3
    let s5 := setLeft s4 pivot (some i)
    setParent s5 i (some pivot)

/-- Embeds `BalTreeInNode::rotateRight` (BalTreeIn.hpp lines 215-247),
the mirror of `rotateLeft`. -/
def rotateRight (s : State) (i : Nat) : State :=
  match (s.node i).left with
  | none => s
  | some pivot =>
    let s1 := setLeft s i ((s.node pivot).right)
    let s2 := match (s1.node i).left with
              | some b => setParent s1 b (some i)
              | none => s1
    let s3 := setParent s2 pivot ((s2.node i).parent)
    let s4 := match (s3.node pivot).parent with
              | some p =>
                if (s3.node p).left = some i then setLeft s3 p (some pivot)
                else setRight s3 p (some pivot)
              | none =>
                match (s3.node pivot).root with
                | some r => setBase s3 r (some pivot)
                | none => s3
    let s5 := setRight s4 pivot (some i)
    setParent s5 i (some pivot)

/-- Level triple `(L, R, G)` computed at the top of each iteration of the
`while(node)` loop of `AATreeInNode::rebalance` (AATreeIn.hpp lines
174-186): level of the left child, of the right child and of the
right-right grandchild, each 0 when the node is absent. -/
def aaLevels (s : State) (i : Nat) : Nat × Nat × Nat :=
  let levelL := match (s.node i).left with
                | none => 0
                | some l => (s.node l).level
  let levelRG : Nat × Nat :=
    match (s.node i).right with
    | none => (0, 0)
    | some rt =>
      match (s.node rt).right with
      | none => ((s.node rt).level, 0)
      | some g => ((s.node rt).level, (s.node g).level)
  (levelL, levelRG.1, levelRG.2)

/-- One iteration of the `while(node)` loop of `AATreeInNode::rebalance`
(AATreeIn.hpp lines 173-195): compute the levels `L`, `R`, `G`, then
either rotate right (`L > R`, loop variable unchanged), fix the level and
climb to the parent (`L == R` or `L == G`), or rotate left (otherwise,
loop variable unchanged).  Returns the new state and the node the next
iteration examines. -/
def aaStep (s : State) (i : Nat) : State × Option Nat :=
  let lv := aaLevels s i
  if lv.2.1 < lv.1 then (rotateRight s i, some i)
  else if lv.1 = lv.2.1 ∨ lv.1 = lv.2.2 then
    let s1 := setLevel s i (lv.1 + 1)
    (s1, (s1.node i).parent)
  else (rotateLeft s i, some i)

/-- Fuelled iteration of `aaStep` until the loop variable runs off the
top of the tree. -/
def aaLoop (s : State) (fuel : Nat) (cur : Option Nat) : State :=
  match cur with
  | none => s
  | some i =>
    match fuel with
    | 0 => s
    | fuel' + 1 =>
      let st := aaStep s i
      aaLoop st.1 fuel' st.2

/-- Embeds `AATreeInNode::rebalance` (AATreeIn.hpp lines 166-197): zero
the level when the node is detached, then walk the loop starting at the
node itself. -/
def aaRebalance (s : State) (fuel : Nat) (i : Nat) : State :=
  let s0 := if (s.node i).root = none then setLevel s i 0 else s
  aaLoop s0 fuel (some i)

/-- Embeds `TreeInNode::remove` as executed by an `AATreeInNode`: the
physical unlink followed by the virtual `rebalance()` hook, which the
source invokes on `this`, the node just removed (TreeIn.hpp line 403). -/
def nodeRemoveAA (s : State) (fuel : Nat) (i : Nat) : State :=
  match (s.node i).root with
  | none => s
  | some _ => aaRebalance (unlink s fuel i) fuel i

/-- Embeds `TreeInRoot::add(N&)` as executed on an AA tree: as
`rootAddPlain`, but the detach and the trailing hook use the AA
`rebalance` (TreeIn.hpp line 487 dispatches virtually). -/
def rootAddAA (s : State) (fuel : Nat) (r : Nat) (i : Nat) : State :=
  if (s.node i).root = some r then s
  else
    let s0 := if (s.node i).root ≠ none then nodeRemoveAA s fuel i else s
    aaRebalance (attach s0 fuel r i) fuel i

/-- Embeds the checking build of `TreeInNode::check` (TreeIn.hpp lines
91-144): back-pointer coherence with the root or parent, child
back-pointers, ordering against each direct child, and ordering against
the rightmost node under the left child and the leftmost node under the
right child; a detached node must have no connections at all. -/
def nodeCheck (s : State) (fuel : Nat) (i : Nat) : Bool :=
  match (s.node i).root with
  | none =>
    (s.node i).parent == none && (s.node i).left == none &&
      (s.node i).right == none
  | some r =>
    (match (s.node i).parent with
     | none => s.base r == some i
     | some p =>
       ((s.node p).left == some i || (s.node p).right == some i) &&
         (s.node p).root == some r)
    &&
    (match (s.node i).left with
     | none => true
     | some lf =>
       (s.node lf).parent == some i &&
         decide (nodeCompare s i lf ≤ 0) && decide (0 ≤ nodeCompare s lf i) &&
         (match (s.node lf).right with
          | none => true
          | some _ =>
            match rightmostFrom s fuel lf with
            | none => false
            | some rm =>
              decide (nodeCompare s i rm ≤ 0) && decide (0 ≤ nodeCompare s rm i)))
    &&
    (match (s.node i).right with
     | none => true
     | some rt =>
       (s.node rt).parent == some i &&
         decide (0 ≤ nodeCompare s i rt) && decide (nodeCompare s rt i ≤ 0) &&
         (match (s.node rt).left with
          | none => true
          | some _ =>
            match leftmostFrom s fuel rt with
            | none => false
            | some lm =>
              decide (0 ≤ nodeCompare s i lm) && decide (nodeCompare s lm i ≤ 0)))

/-- Embeds the checking build of `BalTreeInNode::check` (BalTreeIn.hpp
lines 55-89): the same back-pointer coherence, with ordering checked only
against the direct children. -/
def balNodeCheck (s : State) (i : Nat) : Bool :=
  match (s.node i).root with
  | none =>
    (s.node i).parent == none && (s.node i).left == none &&
      (s.node i).right == none
  | some r =>
    (match (s.node i).parent with
     | none => s.base r == some i
     | some p =>
       ((s.node p).left == some i || (s.node p).right == some i) &&
         (s.node p).root == some r)
    &&
    (match (s.node i).left with
     | none => true
     | some lf =>
       (s.node lf).parent == some i &&
         decide (nodeCompare s i lf ≤ 0) && decide (0 ≤ nodeCompare s lf i))
    &&
    (match (s.node i).right with
     | none => true
     | some rt =>
       (s.node rt).parent == some i &&
         decide (0 ≤ nodeCompare s i rt) && decide (nodeCompare s rt i ≤ 0))

/-- Embeds the level portion of the checking build of
`AATreeInNode::check` (AATreeIn.hpp lines 52-80): rule 2 against the left
child (else rule 1 when attached, rule 0 when detached), and rule 3 and
the right-right rule against the right child (else rules 1 / 0 again). -/
def aaLevelCheck (s : State) (i : Nat) : Bool :=
  (match (s.node i).left with
   | some l => (s.node i).level == (s.node l).level + 1
   | none =>
     match (s.node i).root with
     | some _ => (s.node i).level == 1
     | none => (s.node i).level == 0)
  &&
  (match (s.node i).right with
   | some rt =>
     ((s.node i).level == (s.node rt).level ||
       (s.node i).level == (s.node rt).level + 1) &&
     (match (s.node rt).right with
      | some g => decide ((s.node g).level < (s.node i).level)
      | none => true)
   | none =>
     match (s.node i).root with
     | some _ => (s.node i).level == 1
     | none => (s.node i).level == 0)

/-- Embeds the checking build of `AATreeInNode::check` (AATreeIn.hpp lines
49-82): the `BalTreeInNode` structural check conjoined with the AA level
rules. -/
def aaNodeCheck (s : State) (i : Nat) : Bool :=
  balNodeCheck s i && aaLevelCheck s i

/-- Unlink sweep of the destructor `~TreeInRoot` (TreeIn.hpp lines
625-650), fuelled: descend to a node with no children, clear its `parent`,
`left` and `right` fields (the `root` field is not touched by the source),
null the corresponding child pointer of its parent, and continue from the
parent. -/
def destroyLoop (s : State) (fuel : Nat) (cur : Option Nat) : State :=
  match cur with
  | none => s
  | some i =>
    match fuel with
    | 0 => s
    | fuel' + 1 =>
      match (s.node i).left with
      | some l => destroyLoop s fuel' (some l)
      | none =>
        match (s.node i).right with
        | some rt => destroyLoop s fuel' (some rt)
        | none =>
          let par := (s.node i).parent
          let s1 := updNode s i fun d =>
            { d with left := none, right := none, parent := none }
          let s2 := match par with
                    | some p =>
                      let s2a := if (s1.node p).left = some i
                                 then setLeft s1 p none else s1
                      if (s2a.node p).right = some i
                      then setRight s2a p none else s2a
                    | none => s1
          destroyLoop s2 fuel' par

/-- Embeds the destructor `~TreeInRoot` (TreeIn.hpp lines 625-650): the
unlink sweep from the base, then `m_base = nullptr`. -/
def rootDestroy (s : State) (fuel : Nat) (r : Nat) : State :=
  setBase (destroyLoop s fuel (s.base r)) r none

/-- Argument of the virtual `rebalance()` hook call that ends
`TreeInNode::remove` (TreeIn.hpp line 403): the source invokes the hook on
`this`, the node just removed, whenever the node was attached; no hook
runs otherwise. -/
def removeHookArg (s : State) (i : Nat) : Option Nat :=
  match (s.node i).root with
  | none => none
  | some _ => some i

/-- Modelled from the spec: the node on which the spec says the rebalance
hook is invoked after a removal — "the node that structurally replaced the
deleted node's position (or, if none, on the affected parent)".  The
structural replacement is the `newLink` of the three-case deletion. -/
def specRemoveRebalanceStart (s : State) (fuel : Nat) (i : Nat) : Option Nat :=
  match (s.node i).root with
  | none => none
  | some _ =>
    match (unlinkSplice s fuel i).1 with
    | some nl => some nl
    | none => (s.node i).parent

/-- Inductive binary trees of node ids, the abstraction the pointer states
are related to. -/
inductive BTree where
  | leaf : BTree
  | node : BTree → Nat → BTree → BTree
  deriving DecidableEq

/-- Number of nodes of an inductive tree. -/
def sizeT : BTree → Nat
  | .leaf => 0
  | .node L _ R => sizeT L + 1 + sizeT R

/-- In-order listing of the node ids of an inductive tree. -/
def inorder : BTree → List Nat
  | .leaf => []
  | .node L j R => inorder L ++ j :: inorder R

/-- Id at the top of an inductive tree, if any. -/
def rootId : BTree → Option Nat
  | .leaf => none
  | .node _ j _ => some j

/-- Representation predicate: the pointer `p`, inside tree `r` of state
`s` and under parent pointer `par`, lays out exactly the inductive tree
`T` — every node of `T` carries `m_root = r` and the recorded parent, and
its `m_left` and `m_right` pointers lay out the two subtrees. -/
def ReprT (s : State) (r : Nat) : Option Nat → Option Nat → BTree → Prop
  | p, _, .leaf => p = none
  | p, par, .node L j R =>
    p = some j ∧ (s.node j).root = some r ∧ (s.node j).parent = par ∧
      ReprT s r (s.node j).left (some j) L ∧ ReprT s r (s.node j).right (some j) R

instance reprTDec (s : State) (r : Nat) :
    ∀ (T : BTree) (p par : Option Nat), Decidable (ReprT s r p par T)
  | BTree.leaf, _, _ => inferInstanceAs (Decidable (_ = _))
  | BTree.node L j R, _, _ =>
    have : Decidable (ReprT s r (s.node j).left (some j) L) := reprTDec s r L _ _
    have : Decidable (ReprT s r (s.node j).right (some j) R) := reprTDec s r R _ _
    inferInstanceAs (Decidable (_ ∧ _ ∧ _ ∧ _ ∧ _))

/-- Removal of the rightmost node of an inductive tree: returns the
remaining tree and the removed id.  Mirrors the predecessor extraction of
the two-children case of `TreeInNode::remove` — the extracted node's
parent adopts the extracted node's left child in its place. -/
def extractMax : BTree → Option (BTree × Nat)
  | .leaf => none
  | .node L j R =>
    match extractMax R with
    | none => some (L, j)
    | some (R2, m) => some (.node L j R2, m)

/-- Effect of the three-case deletion of `TreeInNode::remove` on the
inductive tree, at its top node: no left child — the right subtree takes
the position; no right child — the left subtree does; both present — the
in-order predecessor (rightmost of the left subtree) is spliced into the
position. -/
def dropRoot : BTree → BTree
  | .leaf => .leaf
  | .node L _ R =>
    match L with
    | .leaf => R
    | .node A a B =>
      match R with
      | .leaf => .node A a B
      | .node _ _ _ =>
        match extractMax (BTree.node A a B) with
        | none => R
        | some (L2, m) => .node L2 m R

/-- Effect of `TreeInNode::remove` on the inductive tree: apply the
three-case deletion at the position of `i`. -/
def removeT : BTree → Nat → BTree
  | .leaf, _ => .leaf
  | .node L j R, i =>
    if j = i then dropRoot (.node L j R)
    else .node (removeT L i) j (removeT R i)

/-- Full specification of what `TreeInNode::remove` does to a represented
subtree, used as the induction invariant of the removal proof: `u` is the
state after the unlink of `i` from the subtree `T` that `p` lays out under
parent `par`.  The new state lays out `removeT T i` at the same position;
every node outside `T` other than the context parent is untouched; the
context parent keeps all its fields except that its child pointer on the
side that pointed at `T` now points at the new subtree; bases of other
trees are untouched, and this tree's base is rewritten exactly when the
removed node was the base node. -/
def UnlinkSpec (s u : State) (r : Nat) (p par : Option Nat) (T : BTree)
    (i : Nat) : Prop :=
  ReprT u r (rootId (removeT T i)) par (removeT T i) ∧
  (∀ a, a ∉ inorder T → par ≠ some a → u.node a = s.node a) ∧
  (∀ q, par = some q →
    (u.node q).root = (s.node q).root ∧
    (u.node q).parent = (s.node q).parent ∧
    (u.node q).key = (s.node q).key ∧
    (u.node q).level = (s.node q).level ∧
    ((s.node q).left = p →
      (u.node q).left = rootId (removeT T i) ∧
      (u.node q).right = (s.node q).right) ∧
    ((s.node q).left ≠ p → (s.node q).right = p →
      (u.node q).right = rootId (removeT T i) ∧
      (u.node q).left = (s.node q).left)) ∧
  (∀ q', q' ≠ r → u.base q' = s.base q') ∧
  (par ≠ none → u.base r = s.base r) ∧
  (par = none → rootId T = some i → u.base r = rootId (removeT T i)) ∧
  (par = none → rootId T ≠ some i → u.base r = s.base r)

/-- Forward traversal by repeated `next()`: the list of nodes visited
starting from a given pointer, fuelled both for the chain length and for
the loops inside each `next()` call. -/
def chainNext (s : State) (stepFuel : Nat) : Nat → Option Nat → List Nat
  | _, none => []
  | 0, some _ => []
  | n + 1, some i => i :: chainNext s stepFuel n (nextN s stepFuel i)

/-- Backward traversal by repeated `prev()`. -/
def chainPrev (s : State) (stepFuel : Nat) : Nat → Option Nat → List Nat
  | _, none => []
  | 0, some _ => []
  | n + 1, some i => i :: chainPrev s stepFuel n (prevN s stepFuel i)

/-- Initial memory: every node detached, node `i` carrying key `i`, level
0; every tree empty.  Concrete scenarios below insert into tree 0, so a
node's id doubles as its key. -/
def initState : State :=
  { node := fun i =>
      { root := none, parent := none, left := none, right := none,
        key := (i : Int), level := 0 },
    base := fun _ => none }

/-- Fold AA-tree insertion (`TreeInRoot::add` with the AA hook) of the
given keys into tree 0, starting from `initState`. -/
def addAllAA (ks : List Nat) : State :=
  ks.foldl (fun s k => rootAddAA s 100 0 k) initState

/-- Fold plain-tree insertion of the given keys into tree 0, starting
from `initState`. -/
def addAllPlain (ks : List Nat) : State :=
  ks.foldl (fun s k => rootAddPlain s 100 0 k) initState

/-- State reached two iterations into the rebalance walk that runs inside
`rootAddAA (addAllAA [1,2]) 100 0 3`: node 3 was attached below 2, the
walk has fixed the levels of 3 and 2, and is about to examine node 1 (the
base), where a left rotation fires. -/
def c5State : State :=
  (aaStep (aaStep (attach (addAllAA [1, 2]) 100 0 3) 3).1 2).1

/-- Shape of the plain binary search tree obtained by inserting the keys
5, 3, 8, 1, 4, 7, 9, 2, 6 in that order into the empty tree. -/
def c7Tree : BTree :=
  BTree.node
    (BTree.node
      (BTree.node BTree.leaf 1 (BTree.node BTree.leaf 2 BTree.leaf))
      3
      (BTree.node BTree.leaf 4 BTree.leaf))
    5
    (BTree.node
      (BTree.node (BTree.node BTree.leaf 6 BTree.leaf) 7 BTree.leaf)
      8
      (BTree.node BTree.leaf 9 BTree.leaf))

/-! Basic lemmas about the state updaters. -/

theorem updNode_node (s : State) (i : Nat) (f : NodeData → NodeData) (j : Nat) :
    (updNode s i f).node j = if j = i then f (s.node j) else s.node j := rfl

theorem updNode_base (s : State) (i : Nat) (f : NodeData → NodeData) :
    (updNode s i f).base = s.base := rfl

theorem setBase_node (s : State) (r : Nat) (b : Option Nat) :
    (setBase s r b).node = s.node := rfl

theorem setBase_base (s : State) (r : Nat) (b : Option Nat) (q : Nat) :
    (setBase s r b).base q = if q = r then b else s.base q := rfl

theorem setParent_parent_self (s : State) (i : Nat) (v : Option Nat) :
    ((setParent s i v).node i).parent = v := by
  simp [setParent, updNode]

theorem setLeft_root (s : State) (a : Nat) (v : Option Nat) (j : Nat) :
    ((setLeft s a v).node j).root = (s.node j).root := by
  simp only [setLeft, updNode_node]
  split <;> rfl

theorem setRight_root (s : State) (a : Nat) (v : Option Nat) (j : Nat) :
    ((setRight s a v).node j).root = (s.node j).root := by
  simp only [setRight, updNode_node]
  split <;> rfl

theorem setParent_root (s : State) (a : Nat) (v : Option Nat) (j : Nat) :
    ((setParent s a v).node j).root = (s.node j).root := by
  simp only [setParent, updNode_node]
  split <;> rfl

theorem destroyLoop_preserves_root (fuel : Nat) :
    ∀ (s : State) (cur : Option Nat) (j : Nat),
    ((destroyLoop s fuel cur).node j).root = (s.node j).root := by
  induction fuel with
  | zero =>
    intro s cur j
    cases cur <;> rfl
  | succ n ih =>
    intro s cur j
    cases cur with
    | none => rfl
    | some i =>
      rw [destroyLoop]
      cases hl : (s.node i).left with
      | some l => exact ih s (some l) j
      | none =>
        cases hr : (s.node i).right with
        | some rt => exact ih s (some rt) j
        | none =>
          cases hp : (s.node i).parent with
          | none =>
            rw [ih]
            simp only [updNode_node]
            split <;> rfl
          | some p =>
            rw [ih]
            dsimp only
            split <;> split <;>
              simp only [setRight_root, setLeft_root, updNode_node] <;>
              split <;> rfl

/-- C1: the spec demands that after every single add or remove on an AA
tree, `check()` holds for every attached node.  The three adds do keep the
invariants here, but after removing key 1 from the AA tree {1,2,3} the
base node (key 2) still has level 2 with no left child, so the AA check
fails: `TreeInNode::remove` runs the rebalance walk on the already
detached node, never rebalancing the remaining tree. -/
theorem c1_remove_breaks_aa_check :
    aaNodeCheck (addAllAA [1]) 1 = true ∧
    aaNodeCheck (addAllAA [1, 2]) 1 = true ∧
    aaNodeCheck (addAllAA [1, 2]) 2 = true ∧
    aaNodeCheck (addAllAA [1, 2, 3]) 1 = true ∧
    aaNodeCheck (addAllAA [1, 2, 3]) 2 = true ∧
    aaNodeCheck (addAllAA [1, 2, 3]) 3 = true ∧
    ((nodeRemoveAA (addAllAA [1, 2, 3]) 100 1).node 2).root = some 0 ∧
    ((nodeRemoveAA (addAllAA [1, 2, 3]) 100 1).node 2).left = none ∧
    ((nodeRemoveAA (addAllAA [1, 2, 3]) 100 1).node 2).level = 2 ∧
    aaNodeCheck (nodeRemoveAA (addAllAA [1, 2, 3]) 100 1) 2 = false := by
  decide

/-- C2: the spec says `remove(node)` invokes the rebalance hook on the
node that structurally replaced the deleted node (or on the affected
parent).  The source instead invokes the hook on the removed node itself
(TreeIn.hpp line 403): removing the leaf 1 from the AA tree {1,2,3} has no
structural replacement, the affected parent is 2, yet the hook argument is
the removed node 1 — by then already detached. -/
theorem c2_hook_runs_on_removed_node :
    removeHookArg (addAllAA [1, 2, 3]) 1 = some 1 ∧
    specRemoveRebalanceStart (addAllAA [1, 2, 3]) 100 1 = some 2 ∧
    removeHookArg (addAllAA [1, 2, 3]) 1 ≠
      specRemoveRebalanceStart (addAllAA [1, 2, 3]) 100 1 ∧
    ((nodeRemoveAA (addAllAA [1, 2, 3]) 100 1).node 1).root = none := by
  decide

/-- C3: on the tree {1,3,5,7,9}, `find(4)` is none as specified, but
`findMinus(4)` (the claimed floor query) returns the node with key 5 and
`findPlus(4)` (the claimed ceiling query) returns the node with key 3 —
the opposite of the spec and of the source's own doc comments.  The two
final conjuncts show the additional quirk that the running candidate
starts at the base node: with no key above 9 or below 1 the functions
return the base (key 1) rather than none. -/
theorem c3_floor_ceiling_swapped :
    findN (addAllPlain [1, 3, 5, 7, 9]) 100 0 4 = none ∧
    ((addAllPlain [1, 3, 5, 7, 9]).node 3).key = 3 ∧
    ((addAllPlain [1, 3, 5, 7, 9]).node 5).key = 5 ∧
    findMinus (addAllPlain [1, 3, 5, 7, 9]) 100 0 4 = some 5 ∧
    findPlus (addAllPlain [1, 3, 5, 7, 9]) 100 0 4 = some 3 ∧
    findMinus (addAllPlain [1, 3, 5, 7, 9]) 100 0 10 = some 1 ∧
    findPlus (addAllPlain [1, 3, 5, 7, 9]) 100 0 0 = some 1 := by
  decide

/-- C4: the destructor sweep of `~TreeInRoot` clears `parent`, `left` and
`right` of every member but never touches any node's `root` back-pointer
(first conjunct, fully generally), so after destroying the tree {2,1,3}
every formerly attached node still carries `root = some 0` instead of
being fully detached. -/
theorem c4_destroy_leaves_root_dangling :
    (∀ (s : State) (fuel : Nat) (cur : Option Nat) (j : Nat),
      ((destroyLoop s fuel cur).node j).root = (s.node j).root) ∧
    (((rootDestroy (addAllPlain [2, 1, 3]) 100 0).node 1).root = some 0 ∧
      ((rootDestroy (addAllPlain [2, 1, 3]) 100 0).node 2).root = some 0 ∧
      ((rootDestroy (addAllPlain [2, 1, 3]) 100 0).node 3).root = some 0 ∧
      ((rootDestroy (addAllPlain [2, 1, 3]) 100 0).node 1).parent = none ∧
      ((rootDestroy (addAllPlain [2, 1, 3]) 100 0).node 1).left = none ∧
      ((rootDestroy (addAllPlain [2, 1, 3]) 100 0).node 1).right = none ∧
      ((rootDestroy (addAllPlain [2, 1, 3]) 100 0).node 2).parent = none ∧
      ((rootDestroy (addAllPlain [2, 1, 3]) 100 0).node 2).left = none ∧
      ((rootDestroy (addAllPlain [2, 1, 3]) 100 0).node 2).right = none ∧
      (rootDestroy (addAllPlain [2, 1, 3]) 100 0).base 0 = none) :=
  ⟨fun s fuel cur j => destroyLoop_preserves_root fuel s cur j, by decide⟩

/-- C5 counterexample: in the rebalance walk triggered by inserting key 3
into the AA tree {1,2}, the walk reaches the base node 1 with levels
`(L,R,G) = (0,1,1)`, which fires the left-rotation branch; after that step
the position (the base) is occupied by the promoted node 2 and node 1 is
demoted below it, yet the loop variable for the next iteration is still
the demoted node 1, not the occupant 2 as the claim states. -/
theorem c5_counterexample :
    (aaStep (attach (addAllAA [1, 2]) 100 0 3) 3).2 = some 2 ∧
    (aaStep (aaStep (attach (addAllAA [1, 2]) 100 0 3) 3).1 2).2 = some 1 ∧
    c5State.base 0 = some 1 ∧
    aaLevels c5State 1 = (0, 1, 1) ∧
    (aaStep c5State 1).2 = some 1 ∧
    ((aaStep c5State 1).1).base 0 = some 2 ∧
    (((aaStep c5State 1).1).node 2).left = some 1 ∧
    (aaStep c5State 1).2 ≠ some 2 := by
  decide

/-- C5 amended: whenever an iteration of the AA rebalance walk performs a
rotation (levels `L > R`, or neither `L = R` nor `L = G`), the loop
variable for the next iteration is the very node the rotation was
performed at — now demoted to a child of the promoted pivot — not the
post-rotation occupant of the position; the promoted pivot is examined
later, when the walk ascends to it through the parent pointer. -/
theorem c5_amended_loop_variable_unchanged (s : State) (i L R G : Nat)
    (hlv : aaLevels s i = (L, R, G))
    (hrot : R < L ∨ ¬(L = R ∨ L = G)) :
    (aaStep s i).2 = some i ∧
    ∃ piv, (if R < L then (s.node i).left else (s.node i).right) = some piv ∧
      (((aaStep s i).1).node i).parent = some piv := by
  by_cases hRL : R < L
  · have hpl : ∃ piv, (s.node i).left = some piv := by
      cases hpl : (s.node i).left with
      | none =>
        exfalso
        simp only [aaLevels, hpl] at hlv
        have : L = 0 := by
          have := congrArg Prod.fst hlv
          simpa using this.symm
        omega
      | some piv => exact ⟨piv, rfl⟩
    obtain ⟨piv, hpiv⟩ := hpl
    refine ⟨?_, piv, by simp [hRL, hpiv], ?_⟩
    · simp only [aaStep, hlv]
      rw [if_pos hRL]
    · simp only [aaStep, hlv]
      rw [if_pos hRL]
      simp only [rotateRight, hpiv]
      exact setParent_parent_self _ _ _
  · have hne : ¬(L = R ∨ L = G) := hrot.resolve_left hRL
    have hpr : ∃ piv, (s.node i).right = some piv := by
      cases hpr : (s.node i).right with
      | none =>
        exfalso
        simp only [aaLevels, hpr] at hlv
        have hR : R = 0 := by
          have := congrArg (fun t => t.2.1) hlv
          simpa using this.symm
        have hL : L = 0 := by omega
        exact hne (Or.inl (by omega))
      | some piv => exact ⟨piv, rfl⟩
    obtain ⟨piv, hpiv⟩ := hpr
    refine ⟨?_, piv, by simp [hRL, hpiv], ?_⟩
    · simp only [aaStep, hlv]
      rw [if_neg hRL, if_neg hne]
    · simp only [aaStep, hlv]
      rw [if_neg hRL, if_neg hne]
      simp only [rotateLeft, hpiv]
      exact setParent_parent_self _ _ _

/-- Witness for the amended C5 at the concrete rotation of the
counterexample run. -/
theorem c5_amended_loop_variable_unchanged_witness :
    (aaStep c5State 1).2 = some 1 ∧
    ∃ piv, (if (1 : Nat) < 0 then (c5State.node 1).left
            else (c5State.node 1).right) = some piv ∧
      (((aaStep c5State 1).1).node 1).parent = some piv :=
  c5_amended_loop_variable_unchanged c5State 1 0 1 1 (by decide) (by decide)

/-- C6: removing the only node of the singleton AA tree {1} detaches it,
but the trailing rebalance walk first zeroes its level and then sets it
back to 1 in the first loop iteration, so the detached node ends with
level 1 — violating the convention that a detached node has level 0 — and
its own AA check fails. -/
theorem c6_removed_node_keeps_level_one :
    ((nodeRemoveAA (addAllAA [1]) 100 1).node 1).root = none ∧
    ((nodeRemoveAA (addAllAA [1]) 100 1).node 1).parent = none ∧
    ((nodeRemoveAA (addAllAA [1]) 100 1).node 1).left = none ∧
    ((nodeRemoveAA (addAllAA [1]) 100 1).node 1).right = none ∧
    ((nodeRemoveAA (addAllAA [1]) 100 1).node 1).level = 1 ∧
    aaNodeCheck (nodeRemoveAA (addAllAA [1]) 100 1) 1 = false := by
  decide

/-- C9: `TreeInRoot::remove` on a node not attached to this root returns
with the state — tree structure and node links alike — completely
unchanged. -/
theorem c9_remove_not_on_root_noop (s : State) (fuel r i : Nat)
    (h : (s.node i).root ≠ some r) :
    rootRemove s fuel r i = s := by
  unfold rootRemove
  rw [if_neg h]

/-- Witness for C9: node 1 lives on tree 0, removing it via tree 5 is a
no-op. -/
theorem c9_remove_not_on_root_noop_witness :
    rootRemove (addAllPlain [1, 2]) 100 5 1 = addAllPlain [1, 2] :=
  c9_remove_not_on_root_noop _ _ _ _ (by decide)

/-! Lemmas relating the pointer structure to the inductive tree. -/

theorem reprT_leaf_iff (s : State) (r : Nat) (p par : Option Nat) :
    ReprT s r p par BTree.leaf ↔ p = none := Iff.rfl

theorem reprT_node_iff (s : State) (r : Nat) (p par : Option Nat)
    (L : BTree) (j : Nat) (R : BTree) :
    ReprT s r p par (BTree.node L j R) ↔
      p = some j ∧ (s.node j).root = some r ∧ (s.node j).parent = par ∧
        ReprT s r (s.node j).left (some j) L ∧
        ReprT s r (s.node j).right (some j) R := Iff.rfl

theorem reprT_rootId {s : State} {r : Nat} {p par : Option Nat} {T : BTree}
    (h : ReprT s r p par T) : p = rootId T := by
  cases T with
  | leaf => exact h
  | node L j R => exact h.1

theorem inorder_node_ne_nil (L : BTree) (j : Nat) (R : BTree) :
    inorder (BTree.node L j R) ≠ [] := by
  simp [inorder]

theorem self_mem_inorder (L : BTree) (j : Nat) (R : BTree) :
    j ∈ inorder (BTree.node L j R) := by
  simp [inorder]

theorem reprT_mem_root {s : State} {r : Nat} :
    ∀ {T : BTree} {p par : Option Nat}, ReprT s r p par T →
      ∀ {a : Nat}, a ∈ inorder T → (s.node a).root = some r := by
  intro T
  induction T with
  | leaf => intro p par _ a ha; simp [inorder] at ha
  | node L j R ihL ihR =>
    intro p par h a ha
    obtain ⟨_, hroot, _, hL, hR⟩ := h
    rcases List.mem_append.1 ha with hmem | hmem
    · exact ihL hL hmem
    · rcases List.mem_cons.1 hmem with rfl | hmem
      · exact hroot
      · exact ihR hR hmem

theorem reprT_frame {s1 s2 : State} {r : Nat} :
    ∀ {T : BTree} {p par : Option Nat},
      (∀ j ∈ inorder T, s2.node j = s1.node j) →
      ReprT s1 r p par T → ReprT s2 r p par T := by
  intro T
  induction T with
  | leaf => intro p par _ h; exact h
  | node L j R ihL ihR =>
    intro p par hagree h
    obtain ⟨hp, hroot, hpar, hL, hR⟩ := h
    have hj : s2.node j = s1.node j := hagree j (self_mem_inorder L j R)
    refine ⟨hp, ?_, ?_, ?_, ?_⟩
    · rw [hj]; exact hroot
    · rw [hj]; exact hpar
    · rw [hj]
      exact ihL (fun a ha => hagree a (by simp [inorder, ha])) hL
    · rw [hj]
      exact ihR (fun a ha => hagree a (by simp [inorder, ha])) hR

theorem leftmostFrom_eq_head {s : State} {r : Nat} :
    ∀ (T : BTree) {j : Nat} {par : Option Nat} (fuel : Nat),
      ReprT s r (some j) par T → sizeT T ≤ fuel + 1 →
      leftmostFrom s fuel j = (inorder T).head? := by
  intro T
  induction T with
  | leaf =>
    intro j par fuel h _
    exact absurd h (by simp [reprT_leaf_iff])
  | node L j0 R ihL ihR =>
    intro j par fuel h hfuel
    obtain ⟨hp, hroot, hpar, hL, hR⟩ := h
    obtain rfl : j = j0 := Option.some.inj hp
    have hleft : (s.node j).left = rootId L := reprT_rootId hL
    cases L with
    | leaf =>
      rw [leftmostFrom, hleft]
      simp [rootId, inorder]
    | node L1 j1 R1 =>
      have hsz : sizeT (BTree.node L1 j1 R1) + 1 + sizeT R ≤ fuel + 1 := hfuel
      cases fuel with
      | zero =>
        exfalso
        have : 1 ≤ sizeT (BTree.node L1 j1 R1) := by
          simp [sizeT]; omega
        omega
      | succ f =>
        rw [leftmostFrom, hleft]
        show leftmostFrom s f j1 = _
        rw [ihL f (by rw [hleft] at hL; exact hL) (by omega)]
        show (inorder (BTree.node L1 j1 R1)).head? = _
        rw [show inorder ((L1.node j1 R1).node j R) =
              inorder (BTree.node L1 j1 R1) ++ j :: inorder R from rfl,
          List.head?_append_of_ne_nil _ (inorder_node_ne_nil L1 j1 R1)]

theorem rightmostFrom_eq_getLast {s : State} {r : Nat} :
    ∀ (T : BTree) {j : Nat} {par : Option Nat} (fuel : Nat),
      ReprT s r (some j) par T → sizeT T ≤ fuel + 1 →
      rightmostFrom s fuel j = (inorder T).getLast? := by
  intro T
  induction T with
  | leaf =>
    intro j par fuel h _
    exact absurd h (by simp [reprT_leaf_iff])
  | node L j0 R ihL ihR =>
    intro j par fuel h hfuel
    obtain ⟨hp, hroot, hpar, hL, hR⟩ := h
    obtain rfl : j = j0 := Option.some.inj hp
    have hright : (s.node j).right = rootId R := reprT_rootId hR
    cases R with
    | leaf =>
      rw [rightmostFrom, hright]
      simp [rootId, inorder, List.getLast?_append_cons]
    | node L1 j1 R1 =>
      have hsz : sizeT L + 1 + sizeT (BTree.node L1 j1 R1) ≤ fuel + 1 := hfuel
      cases fuel with
      | zero =>
        exfalso
        have : 1 ≤ sizeT (BTree.node L1 j1 R1) := by
          simp [sizeT]; omega
        omega
      | succ f =>
        rw [rightmostFrom, hright]
        show rightmostFrom s f j1 = _
        rw [ihR f (by rw [hright] at hR; exact hR) (by omega)]
        show (inorder (BTree.node L1 j1 R1)).getLast? = _
        rw [show inorder (L.node j (L1.node j1 R1)) =
              (inorder L ++ [j]) ++ inorder (BTree.node L1 j1 R1) from by
                simp [inorder],
          List.getLast?_append_of_ne_nil _ (inorder_node_ne_nil L1 j1 R1)]

theorem chainNext_none (s : State) (F n : Nat) : chainNext s F n none = [] := by
  cases n <;> rfl

theorem chainNext_succ (s : State) (F n i : Nat) :
    chainNext s F (n + 1) (some i) = i :: chainNext s F n (nextN s F i) := rfl

theorem chainPrev_none (s : State) (F n : Nat) : chainPrev s F n none = [] := by
  cases n <;> rfl

theorem chainPrev_succ (s : State) (F n i : Nat) :
    chainPrev s F (n + 1) (some i) = i :: chainPrev s F n (prevN s F i) := rfl

/-- Forward-traversal concatenation: starting `next()`-chaining at the
leftmost node of a represented subtree `T` produces exactly the in-order
listing of `T`, followed by the chain from the exit point `e` that the
ascent from `T`'s top node reaches. -/
theorem chainNext_concat {s : State} {r F : Nat} :
    ∀ (T : BTree) {j : Nat} {par e : Option Nat} {d : Nat},
      ReprT s r (some j) par T → (inorder T).Nodup →
      (∀ f, d ≤ f → ascendNext s f j = e) →
      d + sizeT T ≤ F →
      ∀ k, chainNext s F (sizeT T + k) ((inorder T).head?) =
        inorder T ++ chainNext s F k e := by
  intro T
  induction T with
  | leaf =>
    intro j par e d h _ _ _ _
    exact absurd h (by simp [reprT_leaf_iff])
  | node L j0 R ihL ihR =>
    intro j par e d h hnd hE hF k
    obtain ⟨hp, hroot, hpar, hL, hR⟩ := h
    obtain rfl : j = j0 := Option.some.inj hp
    have hleft : (s.node j).left = rootId L := reprT_rootId hL
    have hright : (s.node j).right = rootId R := reprT_rootId hR
    have hFu : d + (sizeT L + 1 + sizeT R) ≤ F := hF
    have hndR : (inorder R).Nodup :=
      ((List.Nodup.of_append_right hnd)).of_cons
    have hdisj : List.Disjoint (inorder L) (j :: inorder R) :=
      List.disjoint_of_nodup_append hnd
    have hchainR : chainNext s F (sizeT R + k) (nextN s F j) =
        inorder R ++ chainNext s F k e := by
      cases R with
      | leaf =>
        have hnextj : nextN s F j = e := by
          rw [nextN, hright]
          exact hE F (by omega)
        rw [hnextj]
        simp [sizeT, inorder]
      | node R1 j1 R2 =>
        rw [hright] at hR
        have hRc := hR
        obtain ⟨_, _, hpar1, _, _⟩ := hR
        have hnextj : nextN s F j = (inorder (BTree.node R1 j1 R2)).head? := by
          rw [nextN, hright]
          exact leftmostFrom_eq_head (BTree.node R1 j1 R2) F hRc (by omega)
        have hcond : (s.node j).left ≠ some j1 := by
          intro hcontra
          rw [hleft] at hcontra
          have hmemL : j1 ∈ inorder L := by
            cases L with
            | leaf => simp [rootId] at hcontra
            | node A a B =>
              have ha : a = j1 := Option.some.inj hcontra
              rw [← ha]
              exact self_mem_inorder A a B
          exact hdisj hmemL (by simp [self_mem_inorder R1 j1 R2])
        have hER : ∀ f, d + 1 ≤ f → ascendNext s f j1 = e := by
          intro f hf
          obtain ⟨f2, rfl⟩ : ∃ f2, f = f2 + 1 := ⟨f - 1, by omega⟩
          rw [ascendNext, hpar1]
          dsimp only
          rw [if_neg hcond]
          exact hE f2 (by omega)
        have hres := ihR hRc hndR hER (by omega) k
        rw [hnextj]
        exact hres
    show chainNext s F ((sizeT L + 1 + sizeT R) + k)
        ((inorder L ++ j :: inorder R).head?) =
      (inorder L ++ j :: inorder R) ++ chainNext s F k e
    cases L with
    | leaf =>
      show chainNext s F ((0 + 1 + sizeT R) + k) ((j :: inorder R).head?) = _
      rw [show (0 + 1 + sizeT R) + k = (sizeT R + k) + 1 from by omega]
      rw [List.head?_cons, chainNext_succ, hchainR]
      simp [inorder]
    | node L0 l0 R0 =>
      rw [hleft] at hL
      have hLc := hL
      obtain ⟨_, _, hparl0, _, _⟩ := hL
      have hndL : (inorder (BTree.node L0 l0 R0)).Nodup :=
        List.Nodup.of_append_left hnd
      have hleftBase : (s.node j).left = some l0 := hleft
      have hEL : ∀ f, 0 ≤ f → ascendNext s f l0 = some j := by
        intro f _
        rw [ascendNext, hparl0]
        dsimp only
        rw [if_pos hleftBase]
      have hres := ihL hLc hndL hEL (by omega) (1 + sizeT R + k)
      rw [List.head?_append_of_ne_nil _ (inorder_node_ne_nil L0 l0 R0)]
      rw [show (sizeT (BTree.node L0 l0 R0) + 1 + sizeT R) + k =
            sizeT (BTree.node L0 l0 R0) + (1 + sizeT R + k) from by omega]
      rw [hres]
      rw [show 1 + sizeT R + k = (sizeT R + k) + 1 from by omega]
      rw [chainNext_succ, hchainR]
      simp

/-- Backward-traversal concatenation, the mirror of `chainNext_concat`:
`prev()`-chaining from the rightmost node of a represented subtree `T`
produces the reversed in-order listing of `T`, followed by the chain from
the exit point of the mirrored ascent. -/
theorem chainPrev_concat {s : State} {r F : Nat} :
    ∀ (T : BTree) {j : Nat} {par e : Option Nat} {d : Nat},
      ReprT s r (some j) par T → (inorder T).Nodup →
      (∀ f, d ≤ f → ascendPrev s f j = e) →
      d + sizeT T ≤ F →
      ∀ k, chainPrev s F (sizeT T + k) ((inorder T).getLast?) =
        (inorder T).reverse ++ chainPrev s F k e := by
  intro T
  induction T with
  | leaf =>
    intro j par e d h _ _ _ _
    exact absurd h (by simp [reprT_leaf_iff])
  | node L j0 R ihL ihR =>
    intro j par e d h hnd hE hF k
    obtain ⟨hp, hroot, hpar, hL, hR⟩ := h
    obtain rfl : j = j0 := Option.some.inj hp
    have hleft : (s.node j).left = rootId L := reprT_rootId hL
    have hright : (s.node j).right = rootId R := reprT_rootId hR
    have hFu : d + (sizeT L + 1 + sizeT R) ≤ F := hF
    have hndL : (inorder L).Nodup := List.Nodup.of_append_left hnd
    have hdisj : List.Disjoint (inorder L) (j :: inorder R) :=
      List.disjoint_of_nodup_append hnd
    have hchainL : chainPrev s F (sizeT L + k) (prevN s F j) =
        (inorder L).reverse ++ chainPrev s F k e := by
      cases L with
      | leaf =>
        have hprevj : prevN s F j = e := by
          rw [prevN, hleft]
          exact hE F (by omega)
        rw [hprevj]
        simp [sizeT, inorder]
      | node L1 l1 L2 =>
        rw [hleft] at hL
        have hLc := hL
        obtain ⟨_, _, hparl1, _, _⟩ := hL
        have hprevj : prevN s F j = (inorder (BTree.node L1 l1 L2)).getLast? := by
          rw [prevN, hleft]
          exact rightmostFrom_eq_getLast (BTree.node L1 l1 L2) F hLc (by omega)
        have hcond : (s.node j).right ≠ some l1 := by
          intro hcontra
          rw [hright] at hcontra
          have hmemR : l1 ∈ inorder R := by
            cases R with
            | leaf => simp [rootId] at hcontra
            | node A a B =>
              have ha : a = l1 := Option.some.inj hcontra
              rw [← ha]
              exact self_mem_inorder A a B
          exact hdisj (self_mem_inorder L1 l1 L2) (by simp [hmemR])
        have hEL : ∀ f, d + 1 ≤ f → ascendPrev s f l1 = e := by
          intro f hf
          obtain ⟨f2, rfl⟩ : ∃ f2, f = f2 + 1 := ⟨f - 1, by omega⟩
          rw [ascendPrev, hparl1]
          dsimp only
          rw [if_neg hcond]
          exact hE f2 (by omega)
        have hres := ihL hLc hndL hEL (by omega) k
        rw [hprevj]
        exact hres
    show chainPrev s F ((sizeT L + 1 + sizeT R) + k)
        ((inorder L ++ j :: inorder R).getLast?) =
      (inorder L ++ j :: inorder R).reverse ++ chainPrev s F k e
    cases R with
    | leaf =>
      show chainPrev s F ((sizeT L + 1 + 0) + k) ((inorder L ++ [j]).getLast?) = _
      rw [List.getLast?_append_cons]
      rw [show (sizeT L + 1 + 0) + k = (sizeT L + k) + 1 from by omega]
      rw [show ([j] : List Nat).getLast? = some j from rfl]
      rw [chainPrev_succ, hchainL]
      simp [inorder]
    | node R1 r1 R0 =>
      rw [hright] at hR
      have hRc := hR
      obtain ⟨_, _, hparr1, _, _⟩ := hR
      have hndR : (inorder (BTree.node R1 r1 R0)).Nodup :=
        (List.Nodup.of_append_right hnd).of_cons
      have hrightBase : (s.node j).right = some r1 := hright
      have hER : ∀ f, 0 ≤ f → ascendPrev s f r1 = some j := by
        intro f _
        rw [ascendPrev, hparr1]
        dsimp only
        rw [if_pos hrightBase]
      have hres := ihR hRc hndR hER (by omega) (1 + sizeT L + k)
      rw [List.getLast?_append_cons]
      rw [show (j :: inorder (BTree.node R1 r1 R0)) =
            [j] ++ inorder (BTree.node R1 r1 R0) from rfl,
        List.getLast?_append_of_ne_nil _ (inorder_node_ne_nil R1 r1 R0)]
      rw [show (sizeT L + 1 + sizeT (BTree.node R1 r1 R0)) + k =
            sizeT (BTree.node R1 r1 R0) + (1 + sizeT L + k) from by omega]
      rw [hres]
      rw [show 1 + sizeT L + k = (sizeT L + k) + 1 from by omega]
      rw [chainPrev_succ, hchainL]
      simp

/-- C7: on any represented tree whose keys are pairwise distinct (stated
as: the in-order key listing is strictly increasing, which is exactly the
binary-search-tree ordering for distinct keys), repeated `next()` from
`first()` visits all nodes of the tree in order — hence in strictly
ascending key order (second conjunct) — and repeated `prev()` from
`last()` visits exactly the reverse sequence. -/
theorem c7_inorder_traversal (s : State) (r : Nat) (T : BTree) (F : Nat)
    (hrep : ReprT s r (s.base r) none T)
    (hkeys : ((inorder T).map fun a => (s.node a).key).Pairwise (· < ·))
    (hF : sizeT T ≤ F) :
    chainNext s F F (firstN s F r) = inorder T ∧
    (chainNext s F F (firstN s F r)).Pairwise
      (fun a b => (s.node a).key < (s.node b).key) ∧
    chainPrev s F F (lastN s F r) = (chainNext s F F (firstN s F r)).reverse := by
  have hkeys' : (inorder T).Pairwise (fun a b => (s.node a).key < (s.node b).key) :=
    (List.pairwise_map).1 hkeys
  have hnd : (inorder T).Nodup :=
    hkeys'.imp fun h hab => by rw [hab] at h; exact lt_irrefl _ h
  cases T with
  | leaf =>
    have hbase : s.base r = none := hrep
    have hf : firstN s F r = none := by rw [firstN, hbase]
    have hl : lastN s F r = none := by rw [lastN, hbase]
    rw [hf, hl, chainNext_none, chainPrev_none]
    simp [inorder]
  | node L j R =>
    have hbase : s.base r = some j := hrep.1
    have hrep2 : ReprT s r (some j) none (BTree.node L j R) := by
      rw [hbase] at hrep; exact hrep
    have hpartop : (s.node j).parent = none := hrep2.2.2.1
    have hfirst : firstN s F r = (inorder (BTree.node L j R)).head? := by
      rw [firstN, hbase]
      exact leftmostFrom_eq_head _ F hrep2 (Nat.le_succ_of_le hF)
    have hlast : lastN s F r = (inorder (BTree.node L j R)).getLast? := by
      rw [lastN, hbase]
      exact rightmostFrom_eq_getLast _ F hrep2 (Nat.le_succ_of_le hF)
    have hEtop : ∀ f, 0 ≤ f → ascendNext s f j = none := by
      intro f _
      rw [ascendNext, hpartop]
    have hPtop : ∀ f, 0 ≤ f → ascendPrev s f j = none := by
      intro f _
      rw [ascendPrev, hpartop]
    have hchain := @chainNext_concat s r F (BTree.node L j R) j none none 0
      hrep2 hnd hEtop (by omega) (F - sizeT (BTree.node L j R))
    rw [Nat.add_sub_cancel' hF, chainNext_none, List.append_nil] at hchain
    have hchainP := @chainPrev_concat s r F (BTree.node L j R) j none none 0
      hrep2 hnd hPtop (by omega) (F - sizeT (BTree.node L j R))
    rw [Nat.add_sub_cancel' hF, chainPrev_none, List.append_nil] at hchainP
    refine ⟨?_, ?_, ?_⟩
    · rw [hfirst]; exact hchain
    · rw [hfirst, hchain]; exact hkeys'
    · rw [hlast, hfirst, hchain]; exact hchainP

/-- Witness for C7: the spec's own example — keys 5, 3, 8, 1, 4, 7, 9, 2,
6 inserted into an empty plain tree; `next()` from `first()` yields 1..9
ascending, `prev()` from `last()` the exact reverse. -/
theorem c7_inorder_traversal_witness :
    chainNext (addAllPlain [5, 3, 8, 1, 4, 7, 9, 2, 6]) 20 20
      (firstN (addAllPlain [5, 3, 8, 1, 4, 7, 9, 2, 6]) 20 0) =
      [1, 2, 3, 4, 5, 6, 7, 8, 9] ∧
    chainPrev (addAllPlain [5, 3, 8, 1, 4, 7, 9, 2, 6]) 20 20
      (lastN (addAllPlain [5, 3, 8, 1, 4, 7, 9, 2, 6]) 20 0) =
      [9, 8, 7, 6, 5, 4, 3, 2, 1] := by
  obtain ⟨h1, _, h3⟩ := c7_inorder_traversal (addAllPlain [5, 3, 8, 1, 4, 7, 9, 2, 6])
    0 c7Tree 20 (by decide) (by decide) (by decide)
  have hio : inorder c7Tree = [1, 2, 3, 4, 5, 6, 7, 8, 9] := by decide
  constructor
  · rw [h1, hio]
  · rw [h3, h1, hio]
    rfl

/-! Field-level reading lemmas for the state writers, used to compute the
effect of the pointer surgery of `TreeInNode::remove`. -/

theorem setParent_parent (s : State) (a : Nat) (v : Option Nat) (j : Nat) :
    ((setParent s a v).node j).parent = if j = a then v else (s.node j).parent := by
  simp only [setParent, updNode_node]
  split <;> rfl

theorem setParent_left (s : State) (a : Nat) (v : Option Nat) (j : Nat) :
    ((setParent s a v).node j).left = (s.node j).left := by
  simp only [setParent, updNode_node]
  split <;> rfl

theorem setParent_right (s : State) (a : Nat) (v : Option Nat) (j : Nat) :
    ((setParent s a v).node j).right = (s.node j).right := by
  simp only [setParent, updNode_node]
  split <;> rfl

theorem setParent_key (s : State) (a : Nat) (v : Option Nat) (j : Nat) :
    ((setParent s a v).node j).key = (s.node j).key := by
  simp only [setParent, updNode_node]
  split <;> rfl

theorem setParent_level (s : State) (a : Nat) (v : Option Nat) (j : Nat) :
    ((setParent s a v).node j).level = (s.node j).level := by
  simp only [setParent, updNode_node]
  split <;> rfl

theorem setParent_base (s : State) (a : Nat) (v : Option Nat) :
    (setParent s a v).base = s.base := rfl

theorem setLeft_left (s : State) (a : Nat) (v : Option Nat) (j : Nat) :
    ((setLeft s a v).node j).left = if j = a then v else (s.node j).left := by
  simp only [setLeft, updNode_node]
  split <;> rfl

theorem setLeft_parent (s : State) (a : Nat) (v : Option Nat) (j : Nat) :
    ((setLeft s a v).node j).parent = (s.node j).parent := by
  simp only [setLeft, updNode_node]
  split <;> rfl

theorem setLeft_right (s : State) (a : Nat) (v : Option Nat) (j : Nat) :
    ((setLeft s a v).node j).right = (s.node j).right := by
  simp only [setLeft, updNode_node]
  split <;> rfl

theorem setLeft_key (s : State) (a : Nat) (v : Option Nat) (j : Nat) :
    ((setLeft s a v).node j).key = (s.node j).key := by
  simp only [setLeft, updNode_node]
  split <;> rfl

theorem setLeft_level (s : State) (a : Nat) (v : Option Nat) (j : Nat) :
    ((setLeft s a v).node j).level = (s.node j).level := by
  simp only [setLeft, updNode_node]
  split <;> rfl

theorem setLeft_base (s : State) (a : Nat) (v : Option Nat) :
    (setLeft s a v).base = s.base := rfl

theorem setRight_right (s : State) (a : Nat) (v : Option Nat) (j : Nat) :
    ((setRight s a v).node j).right = if j = a then v else (s.node j).right := by
  simp only [setRight, updNode_node]
  split <;> rfl

theorem setRight_parent (s : State) (a : Nat) (v : Option Nat) (j : Nat) :
    ((setRight s a v).node j).parent = (s.node j).parent := by
  simp only [setRight, updNode_node]
  split <;> rfl

theorem setRight_left (s : State) (a : Nat) (v : Option Nat) (j : Nat) :
    ((setRight s a v).node j).left = (s.node j).left := by
  simp only [setRight, updNode_node]
  split <;> rfl

theorem setRight_key (s : State) (a : Nat) (v : Option Nat) (j : Nat) :
    ((setRight s a v).node j).key = (s.node j).key := by
  simp only [setRight, updNode_node]
  split <;> rfl

theorem setRight_level (s : State) (a : Nat) (v : Option Nat) (j : Nat) :
    ((setRight s a v).node j).level = (s.node j).level := by
  simp only [setRight, updNode_node]
  split <;> rfl

theorem setRight_base (s : State) (a : Nat) (v : Option Nat) :
    (setRight s a v).base = s.base := rfl

theorem setParent_node_ne (s : State) (a : Nat) (v : Option Nat) {j : Nat}
    (h : j ≠ a) : (setParent s a v).node j = s.node j := by
  simp only [setParent, updNode_node, if_neg h]

theorem setLeft_node_ne (s : State) (a : Nat) (v : Option Nat) {j : Nat}
    (h : j ≠ a) : (setLeft s a v).node j = s.node j := by
  simp only [setLeft, updNode_node, if_neg h]

theorem setRight_node_ne (s : State) (a : Nat) (v : Option Nat) {j : Nat}
    (h : j ≠ a) : (setRight s a v).node j = s.node j := by
  simp only [setRight, updNode_node, if_neg h]

theorem updNode_node_ne (s : State) (a : Nat) (f : NodeData → NodeData) {j : Nat}
    (h : j ≠ a) : (updNode s a f).node j = s.node j := by
  simp only [updNode_node, if_neg h]

/-! Lemmas about the inductive removal operations. -/

theorem extractMax_inorder :
    ∀ {L L2 : BTree} {m : Nat}, extractMax L = some (L2, m) →
      inorder L = inorder L2 ++ [m] := by
  intro L
  induction L with
  | leaf => intro L2 m h; simp [extractMax] at h
  | node A a B ihA ihB =>
    intro L2 m h
    rw [extractMax] at h
    cases hB : extractMax B with
    | none =>
      rw [hB] at h
      cases B with
      | node B1 b B2 =>
        rw [extractMax] at hB
        cases h2 : extractMax B2 with
        | none => rw [h2] at hB; simp at hB
        | some p => rw [h2] at hB; simp at hB
      | leaf =>
        simp at h
        obtain ⟨rfl, rfl⟩ := h
        simp [inorder]
    | some p =>
      rw [hB] at h
      obtain ⟨B2, m2⟩ := p
      simp at h
      obtain ⟨rfl, rfl⟩ := h
      rw [inorder, ihB hB]
      simp [inorder]

theorem extractMax_node (A : BTree) (a : Nat) (B : BTree) :
    ∃ L2 m, extractMax (BTree.node A a B) = some (L2, m) := by
  rw [extractMax]
  cases hB : extractMax B with
  | none => exact ⟨A, a, rfl⟩
  | some p => exact ⟨BTree.node A a p.1, p.2, rfl⟩

theorem removeT_not_mem :
    ∀ (T : BTree) {i : Nat}, i ∉ inorder T → removeT T i = T := by
  intro T
  induction T with
  | leaf => intro i _; rfl
  | node L j R ihL ihR =>
    intro i hi
    rw [removeT, if_neg, ihL, ihR]
    · intro h; exact hi (by simp [inorder, h])
    · intro h; exact hi (by simp [inorder, h])
    · intro h; exact hi (by simp [inorder, ← h])

theorem rootId_removeT_ne {T : BTree} {i : Nat} (h : rootId T ≠ some i) :
    rootId (removeT T i) = rootId T := by
  cases T with
  | leaf => rfl
  | node L j R =>
    rw [removeT, if_neg]
    · rfl
    · intro hji
      exact h (by rw [rootId, hji])

theorem inorder_removeT :
    ∀ (T : BTree) {i : Nat}, (inorder T).Nodup → i ∈ inorder T →
      inorder (removeT T i) = (inorder T).erase i := by
  intro T
  induction T with
  | leaf => intro i _ hi; simp [inorder] at hi
  | node L j R ihL ihR =>
    intro i hnd hi
    have hdisj : List.Disjoint (inorder L) (j :: inorder R) :=
      List.disjoint_of_nodup_append hnd
    have hndL : (inorder L).Nodup := List.Nodup.of_append_left hnd
    have hndjR : (j :: inorder R).Nodup := List.Nodup.of_append_right hnd
    have hndR : (inorder R).Nodup := hndjR.of_cons
    have hjR : j ∉ inorder R := (List.nodup_cons.1 hndjR).1
    by_cases hij : j = i
    · subst hij
      have hjL : j ∉ inorder L := fun h => hdisj h (by simp)
      rw [removeT, if_pos rfl]
      rw [show inorder (BTree.node L j R) = inorder L ++ j :: inorder R from rfl]
      rw [List.erase_append_right _ hjL, List.erase_cons_head]
      cases L with
      | leaf => simp [dropRoot, inorder]
      | node A a B =>
        cases R with
        | leaf => simp [dropRoot, inorder]
        | node R1 b R2 =>
          obtain ⟨L2, m, hex⟩ := extractMax_node A a B
          rw [dropRoot]
          rw [hex]
          rw [show inorder (BTree.node L2 m (BTree.node R1 b R2)) =
                inorder L2 ++ m :: inorder (BTree.node R1 b R2) from rfl]
          rw [extractMax_inorder hex]
          simp
    · rw [removeT, if_neg hij]
      rcases List.mem_append.1 hi with hmem | hmem
      · have hiR : i ∉ inorder R := fun h =>
          hdisj hmem (by simp [h])
        rw [show inorder (BTree.node (removeT L i) j (removeT R i)) =
              inorder (removeT L i) ++ j :: inorder (removeT R i) from rfl]
        rw [ihL hndL hmem, removeT_not_mem R hiR]
        rw [show inorder (BTree.node L j R) = inorder L ++ j :: inorder R from rfl]
        rw [List.erase_append_left _ hmem]
      · rcases List.mem_cons.1 hmem with rfl | hmem
        · exact absurd rfl hij
        · have hiL : i ∉ inorder L := fun h => hdisj h (by simp [hmem])
          rw [show inorder (BTree.node (removeT L i) j (removeT R i)) =
                inorder (removeT L i) ++ j :: inorder (removeT R i) from rfl]
          rw [ihR hndR hmem, removeT_not_mem L hiL]
          rw [show inorder (BTree.node L j R) = inorder L ++ j :: inorder R from rfl]
          rw [List.erase_append_right _ hiL, List.erase_cons_tail]
          intro h
          exact hij (by simpa using h.symm)

theorem rootId_mem {T : BTree} {b : Nat} (h : rootId T = some b) :
    b ∈ inorder T := by
  cases T with
  | leaf => simp [rootId] at h
  | node L j R =>
    have hj : j = b := Option.some.inj h
    rw [← hj]
    exact self_mem_inorder L j R

theorem reprT_left_child_mem {s : State} {r : Nat} :
    ∀ {T : BTree} {p par : Option Nat}, ReprT s r p par T →
      ∀ {a b : Nat}, a ∈ inorder T → (s.node a).left = some b → b ∈ inorder T := by
  intro T
  induction T with
  | leaf => intro p par _ a b ha _; simp [inorder] at ha
  | node L j R ihL ihR =>
    intro p par h a b ha hab
    obtain ⟨_, _, _, hL, hR⟩ := h
    rcases List.mem_append.1 ha with hmem | hmem
    · exact List.mem_append.2 (Or.inl (ihL hL hmem hab))
    · rcases List.mem_cons.1 hmem with rfl | hmem
      · have : rootId L = some b := by rw [← reprT_rootId hL, hab]
        exact List.mem_append.2 (Or.inl (rootId_mem this))
      · exact List.mem_append.2 (Or.inr (List.mem_cons.2 (Or.inr (ihR hR hmem hab))))

theorem reprT_right_child_mem {s : State} {r : Nat} :
    ∀ {T : BTree} {p par : Option Nat}, ReprT s r p par T →
      ∀ {a b : Nat}, a ∈ inorder T → (s.node a).right = some b → b ∈ inorder T := by
  intro T
  induction T with
  | leaf => intro p par _ a b ha _; simp [inorder] at ha
  | node L j R ihL ihR =>
    intro p par h a b ha hab
    obtain ⟨_, _, _, hL, hR⟩ := h
    rcases List.mem_append.1 ha with hmem | hmem
    · exact List.mem_append.2 (Or.inl (ihL hL hmem hab))
    · rcases List.mem_cons.1 hmem with rfl | hmem
      · have : rootId R = some b := by rw [← reprT_rootId hR, hab]
        exact List.mem_append.2 (Or.inr (List.mem_cons.2 (Or.inr (rootId_mem this))))
      · exact List.mem_append.2 (Or.inr (List.mem_cons.2 (Or.inr (ihR hR hmem hab))))

/-- Structural facts about the node reached by the rightmost descent from
the top of a represented subtree: it has no right child, it lays out a
subtree whose in-order listing (ending in the node itself) is a sublist of
the whole subtree's, and it is either the top itself or the right child of
some member whose left child it is not. -/
theorem rightmost_facts {s : State} {r : Nat} :
    ∀ (T : BTree) {b : Nat} {bpar : Option Nat} (F : Nat),
      ReprT s r (some b) bpar T → (inorder T).Nodup → sizeT T ≤ F + 1 →
      ∃ m, rightmostFrom s F b = some m ∧ m ∈ inorder T ∧
        (s.node m).right = none ∧
        (∃ Cm pm, ReprT s r (some m) pm (BTree.node Cm m BTree.leaf) ∧
          (inorder Cm ++ [m]).Sublist (inorder T)) ∧
        ((m = b ∧ (s.node m).parent = bpar) ∨
          (m ≠ b ∧ ∃ mp, mp ∈ inorder T ∧ (s.node m).parent = some mp ∧
            (s.node mp).right = some m ∧ (s.node mp).left ≠ some m)) := by
  intro T
  induction T with
  | leaf =>
    intro b bpar F h _ _
    exact absurd h (by simp [reprT_leaf_iff])
  | node L j R ihL ihR =>
    intro b bpar F h hnd hF
    obtain ⟨hp, hroot, hpar, hL, hR⟩ := h
    obtain rfl : b = j := Option.some.inj hp
    have hright : (s.node b).right = rootId R := reprT_rootId hR
    have hleft : (s.node b).left = rootId L := reprT_rootId hL
    have hdisj : List.Disjoint (inorder L) (b :: inorder R) :=
      List.disjoint_of_nodup_append hnd
    have hbR : b ∉ inorder R :=
      (List.nodup_cons.1 (List.Nodup.of_append_right hnd)).1
    cases R with
    | leaf =>
      refine ⟨b, ?_, self_mem_inorder L b BTree.leaf, ?_,
        ⟨L, bpar, ⟨rfl, hroot, hpar, hL, hR⟩, ?_⟩, Or.inl ⟨rfl, hpar⟩⟩
      · rw [rightmostFrom, hright]
        rfl
      · rw [hright]
        rfl
      · simp [inorder]
    | node R1 b1 R2 =>
      have hsz : 1 ≤ sizeT (BTree.node R1 b1 R2) := by
        simp [sizeT]; omega
      have hF1 : 1 ≤ F := by
        have : sizeT L + 1 + sizeT (BTree.node R1 b1 R2) ≤ F + 1 := hF
        omega
      obtain ⟨f, rfl⟩ : ∃ f, F = f + 1 := ⟨F - 1, by omega⟩
      rw [hright] at hR
      have hndR : (inorder (BTree.node R1 b1 R2)).Nodup :=
        (List.Nodup.of_append_right hnd).of_cons
      obtain ⟨m, hm1, hm2, hm3, hmC, hm4⟩ := ihR f hR hndR (by
        have : sizeT L + 1 + sizeT (BTree.node R1 b1 R2) ≤ f + 1 + 1 := hF
        omega)
      have hsubR : ∀ l : List Nat, l.Sublist (inorder (BTree.node R1 b1 R2)) →
          l.Sublist (inorder (BTree.node L b (BTree.node R1 b1 R2))) := by
        intro l hl
        refine hl.trans ?_
        refine (List.sublist_cons_self b _).trans ?_
        exact List.sublist_append_right _ _
      have hmT : m ∈ inorder (BTree.node L b (BTree.node R1 b1 R2)) := by
        simp [inorder]
        right
        right
        simpa [inorder] using hm2
      have hmb : m ≠ b := fun hmb => hbR (hmb ▸ hm2)
      obtain ⟨Cm, pm, hCmRep, hCmSub⟩ := hmC
      refine ⟨m, ?_, hmT, hm3, ⟨Cm, pm, hCmRep, hsubR _ hCmSub⟩,
        Or.inr ⟨hmb, ?_⟩⟩
      · rw [rightmostFrom, hright]
        exact hm1
      · rcases hm4 with ⟨rfl, hmp⟩ | ⟨_, mp, hmpT, hmp1, hmp2, hmp3⟩
        · refine ⟨b, self_mem_inorder L b (BTree.node R1 m R2), hmp, ?_, ?_⟩
          · rw [hright]
            rfl
          · intro hcontra
            rw [hleft] at hcontra
            exact hdisj (rootId_mem hcontra) (by simp [hm2])
        · have hmpT2 : mp ∈ inorder (BTree.node L b (BTree.node R1 b1 R2)) := by
            simp only [inorder, List.mem_append, List.mem_cons]
            right
            right
            simpa [inorder] using hmpT
          exact ⟨mp, hmpT2, hmp1, hmp2, hmp3⟩

/-- Frame lemma with re-parented top: a represented subtree stays
represented in a new state that agrees on all its nodes except that the
top node may have a new parent pointer (root, left and right unchanged). -/
theorem reprT_frame_reparent {s1 s2 : State} {r : Nat} {T : BTree} {b : Nat}
    {par1 par2 : Option Nat}
    (h : ReprT s1 r (some b) par1 T) (hnd : (inorder T).Nodup)
    (hagree : ∀ a ∈ inorder T, a ≠ b → s2.node a = s1.node a)
    (hroot : (s2.node b).root = (s1.node b).root)
    (hleft : (s2.node b).left = (s1.node b).left)
    (hright : (s2.node b).right = (s1.node b).right)
    (hpar : (s2.node b).parent = par2) :
    ReprT s2 r (some b) par2 T := by
  cases T with
  | leaf => exact absurd h (by simp [reprT_leaf_iff])
  | node L j R =>
    obtain ⟨hp, hroot1, hpar1, hL, hR⟩ := h
    obtain rfl : b = j := Option.some.inj hp
    have hbL : b ∉ inorder L := fun hmem =>
      (List.disjoint_of_nodup_append hnd) hmem (by simp)
    have hbR : b ∉ inorder R :=
      (List.nodup_cons.1 (List.Nodup.of_append_right hnd)).1
    refine ⟨rfl, by rw [hroot]; exact hroot1, hpar, ?_, ?_⟩
    · rw [hleft]
      exact reprT_frame
        (fun a ha => hagree a (by simp [inorder, ha]) (fun hab => hbL (hab ▸ ha))) hL
    · rw [hright]
      exact reprT_frame
        (fun a ha => hagree a (by simp [inorder, ha]) (fun hab => hbR (hab ▸ ha))) hR

/-! Reading lemmas for `unlinkFinish`, the common tail of the unlink. -/

theorem unlinkFinish_node_i (s2 : State) (r i : Nat) (par nl : Option Nat) :
    ((unlinkFinish s2 r i par nl).node i).root = none ∧
    ((unlinkFinish s2 r i par nl).node i).parent = none ∧
    ((unlinkFinish s2 r i par nl).node i).left = none ∧
    ((unlinkFinish s2 r i par nl).node i).right = none := by
  unfold unlinkFinish
  simp [updNode_node]

theorem unlinkFinish_node_other (s2 : State) (r i : Nat) (par nl : Option Nat)
    {a : Nat} (hai : a ≠ i) (hapar : par ≠ some a) (hanl : nl ≠ some a) :
    (unlinkFinish s2 r i par nl).node a = s2.node a := by
  unfold unlinkFinish
  rw [updNode_node_ne _ _ _ hai]
  cases par with
  | none =>
    dsimp only
    rw [setBase_node]
    cases nl with
    | none => rfl
    | some nlk => exact setParent_node_ne _ _ _ (fun h => hanl (by rw [h]))
  | some q =>
    dsimp only
    have haq : a ≠ q := fun h => hapar (by rw [h])
    have ht2 : ∀ t2 : State, (if (t2.node q).left = some i
        then setLeft t2 q nl else setRight t2 q nl).node a = t2.node a := by
      intro t2
      split
      · exact setLeft_node_ne _ _ _ haq
      · exact setRight_node_ne _ _ _ haq
    rw [ht2]
    cases nl with
    | none => rfl
    | some nlk => exact setParent_node_ne _ _ _ (fun h => hanl (by rw [h]))

theorem unlinkFinish_node_nl (s2 : State) (r i : Nat) (par : Option Nat)
    {nlk : Nat} (hnli : nlk ≠ i) (hnlpar : par ≠ some nlk) :
    ((unlinkFinish s2 r i par (some nlk)).node nlk).root = (s2.node nlk).root ∧
    ((unlinkFinish s2 r i par (some nlk)).node nlk).parent = (s2.node i).parent ∧
    ((unlinkFinish s2 r i par (some nlk)).node nlk).left = (s2.node nlk).left ∧
    ((unlinkFinish s2 r i par (some nlk)).node nlk).right = (s2.node nlk).right := by
  unfold unlinkFinish
  rw [updNode_node_ne _ _ _ hnli]
  cases par with
  | none =>
    dsimp only
    rw [setBase_node]
    refine ⟨setParent_root _ _ _ _, ?_, setParent_left _ _ _ _,
      setParent_right _ _ _ _⟩
    rw [setParent_parent]
    simp
  | some q =>
    dsimp only
    have hqnl : nlk ≠ q := fun h => hnlpar (by rw [h])
    have ht2 : ∀ t2 : State, (if (t2.node q).left = some i
        then setLeft t2 q (some nlk) else setRight t2 q (some nlk)).node nlk
          = t2.node nlk := by
      intro t2
      split
      · exact setLeft_node_ne _ _ _ hqnl
      · exact setRight_node_ne _ _ _ hqnl
    rw [ht2]
    refine ⟨setParent_root _ _ _ _, ?_, setParent_left _ _ _ _,
      setParent_right _ _ _ _⟩
    rw [setParent_parent]
    simp

theorem unlinkFinish_node_par (s2 : State) (r i : Nat) (nl : Option Nat)
    {q : Nat} (hqi : q ≠ i) (hqnl : nl ≠ some q) :
    ((unlinkFinish s2 r i (some q) nl).node q).root = (s2.node q).root ∧
    ((unlinkFinish s2 r i (some q) nl).node q).parent = (s2.node q).parent ∧
    ((unlinkFinish s2 r i (some q) nl).node q).key = (s2.node q).key ∧
    ((unlinkFinish s2 r i (some q) nl).node q).level = (s2.node q).level ∧
    ((s2.node q).left = some i →
      ((unlinkFinish s2 r i (some q) nl).node q).left = nl ∧
      ((unlinkFinish s2 r i (some q) nl).node q).right = (s2.node q).right) ∧
    ((s2.node q).left ≠ some i →
      ((unlinkFinish s2 r i (some q) nl).node q).left = (s2.node q).left ∧
      ((unlinkFinish s2 r i (some q) nl).node q).right = nl) := by
  unfold unlinkFinish
  rw [updNode_node_ne _ _ _ hqi]
  dsimp only
  have ht2 : (match nl with
      | none => s2
      | some nlk => setParent s2 nlk ((s2.node i).parent)).node q = s2.node q := by
    cases nl with
    | none => rfl
    | some nlk => exact setParent_node_ne _ _ _ (fun h => hqnl (by rw [h]))
  generalize hgen : (match nl with
      | none => s2
      | some nlk => setParent s2 nlk ((s2.node i).parent)) = t2
  rw [hgen] at ht2
  by_cases hqleft : (s2.node q).left = some i
  · rw [ht2, if_pos hqleft]
    refine ⟨?_, ?_, ?_, ?_, fun _ => ⟨?_, ?_⟩, fun h => absurd hqleft h⟩
    · rw [setLeft_root, ht2]
    · rw [setLeft_parent, ht2]
    · rw [setLeft_key, ht2]
    · rw [setLeft_level, ht2]
    · rw [setLeft_left]
      simp
    · rw [setLeft_right, ht2]
  · rw [ht2, if_neg hqleft]
    refine ⟨?_, ?_, ?_, ?_, fun h => absurd h hqleft, fun _ => ⟨?_, ?_⟩⟩
    · rw [setRight_root, ht2]
    · rw [setRight_parent, ht2]
    · rw [setRight_key, ht2]
    · rw [setRight_level, ht2]
    · rw [setRight_left, ht2]
    · rw [setRight_right]
      simp

theorem unlinkFinish_base_par (s2 : State) (r i q : Nat) (nl : Option Nat) :
    (unlinkFinish s2 r i (some q) nl).base = s2.base := by
  unfold unlinkFinish
  rw [updNode_base]
  dsimp only
  have : ∀ t2 : State, (if (t2.node q).left = some i
      then setLeft t2 q nl else setRight t2 q nl).base = t2.base := by
    intro t2
    split
    · exact setLeft_base _ _ _
    · exact setRight_base _ _ _
  rw [this]
  cases nl with
  | none => rfl
  | some nlk => exact setParent_base _ _ _

theorem unlinkFinish_base_none (s2 : State) (r i : Nat) (nl : Option Nat) :
    (unlinkFinish s2 r i none nl).base r = nl ∧
    (∀ q', q' ≠ r → (unlinkFinish s2 r i none nl).base q' = s2.base q') := by
  unfold unlinkFinish
  rw [updNode_base]
  dsimp only
  constructor
  · rw [setBase_base]
    simp
  · intro q' hq'
    rw [setBase_base, if_neg hq']
    cases nl with
    | none => rfl
    | some nlk => exact congrFun (setParent_base _ _ _) q'

/-- Characterization of `TreeInNode::remove` on a node with no right
child: the splice is trivial and the whole unlink is the common tail with
the node's left child as the replacement. -/
theorem unlinkFinish_keylevel (s2 : State) (r i : Nat) (par nl : Option Nat)
    (a : Nat) :
    ((unlinkFinish s2 r i par nl).node a).key = (s2.node a).key ∧
    ((unlinkFinish s2 r i par nl).node a).level = (s2.node a).level := by
  have hbody : ∀ t3 : State,
      (∀ b, (t3.node b).key = (s2.node b).key ∧
        (t3.node b).level = (s2.node b).level) →
      ((updNode t3 i (fun d => { d with root := none, parent := none, left := none, right := none })).node a).key = (s2.node a).key ∧
      ((updNode t3 i (fun d => { d with root := none, parent := none, left := none, right := none })).node a).level = (s2.node a).level := by
    intro t3 h
    constructor <;> (rw [updNode_node]; split)
    · dsimp only
      exact (h a).1
    · exact (h a).1
    · dsimp only
      exact (h a).2
    · exact (h a).2
  cases nl with
  | none =>
    cases par with
    | none =>
      unfold unlinkFinish
      dsimp only
      refine hbody _ ?_
      intro b
      rw [setBase_node]
      exact ⟨rfl, rfl⟩
    | some p =>
      unfold unlinkFinish
      dsimp only
      refine hbody _ ?_
      intro b
      split
      · exact ⟨setLeft_key _ _ _ _, setLeft_level _ _ _ _⟩
      · exact ⟨setRight_key _ _ _ _, setRight_level _ _ _ _⟩
  | some nlk =>
    cases par with
    | none =>
      unfold unlinkFinish
      dsimp only
      refine hbody _ ?_
      intro b
      rw [setBase_node]
      exact ⟨setParent_key _ _ _ _, setParent_level _ _ _ _⟩
    | some p =>
      unfold unlinkFinish
      dsimp only
      refine hbody _ ?_
      intro b
      split
      · exact ⟨(setLeft_key _ _ _ _).trans (setParent_key _ _ _ _),
          (setLeft_level _ _ _ _).trans (setParent_level _ _ _ _)⟩
      · exact ⟨(setRight_key _ _ _ _).trans (setParent_key _ _ _ _),
          (setRight_level _ _ _ _).trans (setParent_level _ _ _ _)⟩

theorem unlink_no_right (s : State) (F : Nat) {m r : Nat}
    (hroot : (s.node m).root = some r)
    (hright : (s.node m).right = none) :
    unlink s F m = unlinkFinish s r m ((s.node m).parent) ((s.node m).left) := by
  have hsp : unlinkSplice s F m = ((s.node m).left, s) := by
    cases hc : (s.node m).left with
    | none => rw [unlinkSplice, hc, hright]
    | some c => rw [unlinkSplice, hc, hright]
  simp only [unlink, hroot, hsp]

/-- After `TreeInNode::remove` on an attached node, all four links of the
removed node are cleared. -/
theorem unlink_clears (s : State) (F : Nat) {i r : Nat}
    (h : (s.node i).root = some r) :
    ((unlink s F i).node i).root = none ∧
    ((unlink s F i).node i).parent = none ∧
    ((unlink s F i).node i).left = none ∧
    ((unlink s F i).node i).right = none := by
  rw [unlink, h]
  exact unlinkFinish_node_i _ _ _ _ _

theorem nodeDataExt {a b : NodeData} (h1 : a.root = b.root)
    (h2 : a.parent = b.parent) (h3 : a.left = b.left) (h4 : a.right = b.right)
    (h5 : a.key = b.key) (h6 : a.level = b.level) : a = b := by
  cases a
  cases b
  simp_all

/-- Removing the rightmost node of a duplicate-free tree via the general
three-case deletion gives exactly the extraction remainder. -/
theorem extractMax_removeT :
    ∀ {L L2 : BTree} {m : Nat}, (inorder L).Nodup →
      extractMax L = some (L2, m) → removeT L m = L2 := by
  intro L
  induction L with
  | leaf => intro L2 m _ h; simp [extractMax] at h
  | node A a B ihA ihB =>
    intro L2 m hnd h
    rw [extractMax] at h
    cases hB : extractMax B with
    | none =>
      rw [hB] at h
      cases B with
      | node B1 bb B2 =>
        obtain ⟨B2x, mx, hx⟩ := extractMax_node B1 bb B2
        rw [hx] at hB
        simp at hB
      | leaf =>
        simp at h
        obtain ⟨rfl, rfl⟩ := h
        rw [removeT, if_pos rfl]
        cases A with
        | leaf => rfl
        | node A1 a1 A2 => rfl
    | some p =>
      rw [hB] at h
      obtain ⟨B2, m2⟩ := p
      simp at h
      obtain ⟨rfl, rfl⟩ := h
      have hmB : m2 ∈ inorder B := by
        rw [extractMax_inorder hB]
        simp
      have hdisj : List.Disjoint (inorder A) (a :: inorder B) :=
        List.disjoint_of_nodup_append hnd
      have hndB : (inorder B).Nodup :=
        (List.Nodup.of_append_right hnd).of_cons
      have haB : a ∉ inorder B :=
        (List.nodup_cons.1 (List.Nodup.of_append_right hnd)).1
      have ham : a ≠ m2 := fun h' => haB (h' ▸ hmB)
      have hmA : m2 ∉ inorder A := fun h' => hdisj h' (by simp [hmB])
      rw [removeT, if_neg ham, ihB hndB hB, removeT_not_mem A hmA]

/-- Characterization of `TreeInNode::remove` on a node with no left
child: the splice is trivial and the whole unlink is the common tail with
the node's right child as the replacement. -/
theorem unlink_no_left (s : State) (F : Nat) {i r : Nat}
    (hroot : (s.node i).root = some r)
    (hleft : (s.node i).left = none) :
    unlink s F i = unlinkFinish s r i ((s.node i).parent) ((s.node i).right) := by
  have hsp : unlinkSplice s F i = ((s.node i).right, s) := by
    cases hc : (s.node i).right with
    | none => rw [unlinkSplice, hleft, hc]
    | some c => rw [unlinkSplice, hleft, hc]
  simp only [unlink, hroot, hsp]

/-- Root case of the removal specification when the removed node has no
left child: its right subtree (possibly empty) takes its position. -/
theorem unlink_spec_root_noleft {s : State} {r F i : Nat} {par : Option Nat}
    {R : BTree}
    (hrep : ReprT s r (some i) par (BTree.node BTree.leaf i R))
    (hnd : (inorder (BTree.node BTree.leaf i R)).Nodup)
    (hpar_out : ∀ a ∈ inorder (BTree.node BTree.leaf i R), par ≠ some a) :
    UnlinkSpec s (unlink s F i) r (some i) par (BTree.node BTree.leaf i R) i := by
  obtain ⟨_, hrooti, hpari, hLrep, hRrep⟩ := hrep
  have hleft : (s.node i).left = none := hLrep
  have hnlR : (s.node i).right = rootId R := reprT_rootId hRrep
  have hu : unlink s F i = unlinkFinish s r i par ((s.node i).right) := by
    rw [unlink_no_left s F hrooti hleft, hpari]
  have hiT : i ∈ inorder (BTree.node BTree.leaf i R) :=
    self_mem_inorder _ _ _
  have hiR : i ∉ inorder R := by
    have : (inorder R).Nodup ∧ i ∉ inorder R := by
      have h2 : (i :: inorder R).Nodup := by
        simpa [inorder] using hnd
      exact ⟨h2.of_cons, (List.nodup_cons.1 h2).1⟩
    exact this.2
  have hT' : removeT (BTree.node BTree.leaf i R) i = R := by
    rw [removeT, if_pos rfl]
    rfl
  have hmemT : ∀ a ∈ inorder R, a ∈ inorder (BTree.node BTree.leaf i R) := by
    intro a ha
    simp [inorder, ha]
  have hnl_notout : ∀ a, a ∉ inorder (BTree.node BTree.leaf i R) →
      (s.node i).right ≠ some a := by
    intro a ha hcontra
    rw [hnlR] at hcontra
    exact ha (hmemT a (rootId_mem hcontra))
  unfold UnlinkSpec
  rw [hT']
  refine ⟨?_, ?_, ?_, ?_, ?_, ?_, ?_⟩
  · cases R with
    | leaf => simp [reprT_leaf_iff, rootId]
    | node R1 ri R2 =>
      have hnl : (s.node i).right = some ri := hnlR
      rw [hnl] at hRrep
      have hndR : (inorder (BTree.node R1 ri R2)).Nodup := by
        have h2 : (i :: inorder (BTree.node R1 ri R2)).Nodup := by
          simpa [inorder] using hnd
        exact h2.of_cons
      have hri_i : ri ≠ i := fun h => hiR (h ▸ self_mem_inorder R1 ri R2)
      have hri_par : par ≠ some ri :=
        hpar_out ri (hmemT ri (self_mem_inorder R1 ri R2))
      obtain ⟨hw1, hw2, hw3, hw4⟩ :=
        unlinkFinish_node_nl s r i par hri_i hri_par
      refine reprT_frame_reparent hRrep hndR ?_ ?_ ?_ ?_ ?_
      · intro a ha hari
        rw [hu, hnl]
        exact unlinkFinish_node_other s r i par (some ri)
          (fun h => hiR (h ▸ ha)) (hpar_out a (hmemT a ha))
          (fun h => hari (Option.some.inj h).symm)
      · rw [hu, hnl]; exact hw1
      · rw [hu, hnl]; exact hw3
      · rw [hu, hnl]; exact hw4
      · rw [hu, hnl, hw2, hpari]
  · intro a ha hpa
    rw [hu]
    exact unlinkFinish_node_other s r i par ((s.node i).right)
      (fun h => ha (h ▸ hiT)) hpa (hnl_notout a ha)
  · intro q hq
    have hqT : q ∉ inorder (BTree.node BTree.leaf i R) := by
      intro hmem
      exact hpar_out q hmem hq
    have hqi : q ≠ i := fun h => hqT (h ▸ hiT)
    have hqnl : (s.node i).right ≠ some q := hnl_notout q hqT
    rw [hu, hq]
    obtain ⟨hw1, hw2, hw3, hw4, hw5, hw6⟩ :=
      unlinkFinish_node_par s r i ((s.node i).right) hqi hqnl
    refine ⟨hw1, hw2, hw3, hw4, ?_, ?_⟩
    · intro hql
      obtain ⟨ha, hb⟩ := hw5 hql
      exact ⟨by rw [ha, hnlR], hb⟩
    · intro hql hqr
      obtain ⟨ha, hb⟩ := hw6 hql
      exact ⟨by rw [hb, hnlR], ha⟩
  · intro q' hq'
    rw [hu]
    cases par with
    | none => exact (unlinkFinish_base_none s r i _).2 q' hq'
    | some q => rw [unlinkFinish_base_par]
  · intro hpar
    rw [hu]
    cases par with
    | none => exact absurd rfl hpar
    | some q => rw [unlinkFinish_base_par]
  · intro hpar _
    subst hpar
    rw [hu]
    rw [(unlinkFinish_base_none s r i _).1, hnlR]
  · intro _ hcontra
    exact absurd rfl hcontra

/-- Root case of the removal specification when the removed node has no
right child (but possibly a left one): its left subtree takes its
position. -/
theorem unlink_spec_root_noright {s : State} {r F i : Nat} {par : Option Nat}
    {L : BTree}
    (hrep : ReprT s r (some i) par (BTree.node L i BTree.leaf))
    (hnd : (inorder (BTree.node L i BTree.leaf)).Nodup)
    (hpar_out : ∀ a ∈ inorder (BTree.node L i BTree.leaf), par ≠ some a) :
    UnlinkSpec s (unlink s F i) r (some i) par (BTree.node L i BTree.leaf) i := by
  obtain ⟨_, hrooti, hpari, hLrep, hRrep⟩ := hrep
  have hright : (s.node i).right = none := hRrep
  have hnlL : (s.node i).left = rootId L := reprT_rootId hLrep
  have hu : unlink s F i = unlinkFinish s r i par ((s.node i).left) := by
    rw [unlink_no_right s F hrooti hright, hpari]
  have hiT : i ∈ inorder (BTree.node L i BTree.leaf) :=
    self_mem_inorder _ _ _
  have hdisj : List.Disjoint (inorder L) [i] := by
    have := List.disjoint_of_nodup_append (by simpa [inorder] using hnd :
      (inorder L ++ [i]).Nodup)
    exact this
  have hiL : i ∉ inorder L := fun h => hdisj h (by simp)
  have hT' : removeT (BTree.node L i BTree.leaf) i = L := by
    rw [removeT, if_pos rfl]
    cases L with
    | leaf => rfl
    | node A a B => rfl
  have hmemT : ∀ a ∈ inorder L, a ∈ inorder (BTree.node L i BTree.leaf) := by
    intro a ha
    simp [inorder, ha]
  have hnl_notout : ∀ a, a ∉ inorder (BTree.node L i BTree.leaf) →
      (s.node i).left ≠ some a := by
    intro a ha hcontra
    rw [hnlL] at hcontra
    exact ha (hmemT a (rootId_mem hcontra))
  unfold UnlinkSpec
  rw [hT']
  refine ⟨?_, ?_, ?_, ?_, ?_, ?_, ?_⟩
  · cases L with
    | leaf => simp [reprT_leaf_iff, rootId]
    | node L1 la L2 =>
      have hnl : (s.node i).left = some la := hnlL
      rw [hnl] at hLrep
      have hndL : (inorder (BTree.node L1 la L2)).Nodup := by
        have := List.Nodup.of_append_left (by simpa [inorder] using hnd :
          (inorder (BTree.node L1 la L2) ++ [i]).Nodup)
        exact this
      have hla_i : la ≠ i := fun h => hiL (h ▸ self_mem_inorder L1 la L2)
      have hla_par : par ≠ some la :=
        hpar_out la (hmemT la (self_mem_inorder L1 la L2))
      obtain ⟨hw1, hw2, hw3, hw4⟩ :=
        unlinkFinish_node_nl s r i par hla_i hla_par
      refine reprT_frame_reparent hLrep hndL ?_ ?_ ?_ ?_ ?_
      · intro a ha hala
        rw [hu, hnl]
        exact unlinkFinish_node_other s r i par (some la)
          (fun h => hiL (h ▸ ha)) (hpar_out a (hmemT a ha))
          (fun h => hala (Option.some.inj h).symm)
      · rw [hu, hnl]; exact hw1
      · rw [hu, hnl]; exact hw3
      · rw [hu, hnl]; exact hw4
      · rw [hu, hnl, hw2, hpari]
  · intro a ha hpa
    rw [hu]
    exact unlinkFinish_node_other s r i par ((s.node i).left)
      (fun h => ha (h ▸ hiT)) hpa (hnl_notout a ha)
  · intro q hq
    have hqT : q ∉ inorder (BTree.node L i BTree.leaf) := by
      intro hmem
      exact hpar_out q hmem hq
    have hqi : q ≠ i := fun h => hqT (h ▸ hiT)
    have hqnl : (s.node i).left ≠ some q := hnl_notout q hqT
    rw [hu, hq]
    obtain ⟨hw1, hw2, hw3, hw4, hw5, hw6⟩ :=
      unlinkFinish_node_par s r i ((s.node i).left) hqi hqnl
    refine ⟨hw1, hw2, hw3, hw4, ?_, ?_⟩
    · intro hql
      obtain ⟨ha, hb⟩ := hw5 hql
      exact ⟨by rw [ha, hnlL], hb⟩
    · intro hql hqr
      obtain ⟨ha, hb⟩ := hw6 hql
      exact ⟨by rw [hb, hnlL], ha⟩
  · intro q' hq'
    rw [hu]
    cases par with
    | none => exact (unlinkFinish_base_none s r i _).2 q' hq'
    | some q => rw [unlinkFinish_base_par]
  · intro hpar
    rw [hu]
    cases par with
    | none => exact absurd rfl hpar
    | some q => rw [unlinkFinish_base_par]
  · intro hpar _
    subst hpar
    rw [hu]
    rw [(unlinkFinish_base_none s r i _).1, hnlL]
  · intro _ hcontra
    exact absurd rfl hcontra

/-- Root case of the removal specification with two children where the
in-order predecessor is the direct left child (its right subtree is
empty): it inherits the removed node's right child and takes its
position. -/
theorem unlink_spec_root_prevdirect {s : State} {r F i : Nat}
    {par : Option Nat} {A : BTree} {la : Nat} {R1 : BTree} {ri : Nat}
    {R2 : BTree}
    (hrep : ReprT s r (some i) par
      (BTree.node (BTree.node A la BTree.leaf) i (BTree.node R1 ri R2)))
    (hnd : (inorder (BTree.node (BTree.node A la BTree.leaf) i
      (BTree.node R1 ri R2))).Nodup)
    (hpar_out : ∀ a ∈ inorder (BTree.node (BTree.node A la BTree.leaf) i
      (BTree.node R1 ri R2)), par ≠ some a) :
    UnlinkSpec s (unlink s F i) r (some i) par
      (BTree.node (BTree.node A la BTree.leaf) i (BTree.node R1 ri R2)) i := by
  obtain ⟨_, hrooti, hpari, hLrep, hRrep⟩ := hrep
  have hLleft : (s.node i).left = some la := reprT_rootId hLrep
  have hRright : (s.node i).right = some ri := reprT_rootId hRrep
  rw [hLleft] at hLrep
  rw [hRright] at hRrep
  have hlaright : (s.node la).right = none := hLrep.2.2.2.2
  have hmemTL : ∀ a ∈ inorder (BTree.node A la BTree.leaf),
      a ∈ inorder (BTree.node (BTree.node A la BTree.leaf) i
        (BTree.node R1 ri R2)) := by
    intro a ha
    simp [inorder]
    simp [inorder] at ha
    tauto
  have hmemTR : ∀ a ∈ inorder (BTree.node R1 ri R2),
      a ∈ inorder (BTree.node (BTree.node A la BTree.leaf) i
        (BTree.node R1 ri R2)) := by
    intro a ha
    simp [inorder]
    simp [inorder] at ha
    tauto
  have hiT : i ∈ inorder (BTree.node (BTree.node A la BTree.leaf) i
      (BTree.node R1 ri R2)) := self_mem_inorder _ _ _
  have hdisj : List.Disjoint (inorder (BTree.node A la BTree.leaf))
      (i :: inorder (BTree.node R1 ri R2)) :=
    List.disjoint_of_nodup_append hnd
  have hndL : (inorder (BTree.node A la BTree.leaf)).Nodup :=
    List.Nodup.of_append_left hnd
  have hndR : (inorder (BTree.node R1 ri R2)).Nodup :=
    (List.Nodup.of_append_right hnd).of_cons
  have hiL : i ∉ inorder (BTree.node A la BTree.leaf) := fun h =>
    hdisj h (by simp)
  have hiR : i ∉ inorder (BTree.node R1 ri R2) :=
    (List.nodup_cons.1 (List.Nodup.of_append_right hnd)).1
  have hlaT := hmemTL la (self_mem_inorder A la BTree.leaf)
  have hriT := hmemTR ri (self_mem_inorder R1 ri R2)
  have hla_i : la ≠ i := fun h => hiL (h ▸ self_mem_inorder A la BTree.leaf)
  have hri_i : ri ≠ i := fun h => hiR (h ▸ self_mem_inorder R1 ri R2)
  have hlari : la ≠ ri := fun h =>
    hdisj (self_mem_inorder A la BTree.leaf)
      (List.mem_cons.2 (Or.inr (by rw [h]; exact self_mem_inorder R1 ri R2)))
  have hlaA : la ∉ inorder A := by
    have := List.disjoint_of_nodup_append (by
      simpa [inorder] using hndL : (inorder A ++ [la]).Nodup)
    exact fun h => this h (by simp)
  have hprev : prevN s F i = some la := by
    rw [prevN, hLleft]
    dsimp only
    rw [rightmostFrom, hlaright]
  have hsp : unlinkSplice s F i =
      (some la, setParent (setRight s la (some ri)) ri (some la)) := by
    rw [unlinkSplice, hLleft, hRright]
    dsimp only
    rw [hprev]
    dsimp only
    rw [if_pos rfl]
  have hu : unlink s F i =
      unlinkFinish (setParent (setRight s la (some ri)) ri (some la)) r i par
        (some la) := by
    simp only [unlink, hrooti, hsp, hpari]
  have hs2c_other : ∀ a, a ≠ la → a ≠ ri →
      (setParent (setRight s la (some ri)) ri (some la)).node a = s.node a := by
    intro a h1 h2
    rw [setParent_node_ne _ _ _ h2, setRight_node_ne _ _ _ h1]
  have hs2c_la : (setParent (setRight s la (some ri)) ri (some la)).node la =
      { s.node la with right := some ri } := by
    rw [setParent_node_ne _ _ _ hlari]
    simp [setRight, updNode_node]
  have hs2c_ri : (setParent (setRight s la (some ri)) ri (some la)).node ri =
      { s.node ri with parent := some la } := by
    have h1 : (setRight s la (some ri)).node ri = s.node ri :=
      setRight_node_ne _ _ _ (Ne.symm hlari)
    simp [setParent, updNode_node, h1]
  have hT' : removeT (BTree.node (BTree.node A la BTree.leaf) i
      (BTree.node R1 ri R2)) i = BTree.node A la (BTree.node R1 ri R2) := by
    rw [removeT, if_pos rfl]
    rfl
  have hpar_la : par ≠ some la := hpar_out la hlaT
  have hnl_notout : ∀ a, a ∉ inorder (BTree.node (BTree.node A la BTree.leaf) i
      (BTree.node R1 ri R2)) → (some la : Option Nat) ≠ some a := by
    intro a ha hcontra
    exact ha ((Option.some.inj hcontra) ▸ hlaT)
  obtain ⟨hwla1, hwla2, hwla3, hwla4⟩ :=
    unlinkFinish_node_nl (setParent (setRight s la (some ri)) ri (some la))
      r i par hla_i hpar_la
  unfold UnlinkSpec
  rw [hT']
  have hula : ((unlink s F i).node la).root = some r ∧
      ((unlink s F i).node la).parent = par ∧
      ((unlink s F i).node la).left = (s.node la).left ∧
      ((unlink s F i).node la).right = some ri := by
    rw [hu]
    refine ⟨?_, ?_, ?_, ?_⟩
    · rw [hwla1, hs2c_la]
      exact hLrep.2.1
    · rw [hwla2, hs2c_other i hla_i.symm hri_i.symm, hpari]
    · rw [hwla3, hs2c_la]
    · rw [hwla4, hs2c_la]
  have hagree_other : ∀ a, a ≠ la → a ≠ ri → a ≠ i → par ≠ some a →
      (unlink s F i).node a = s.node a := by
    intro a h1 h2 h3 h4
    rw [hu, unlinkFinish_node_other _ _ _ _ _ h3 h4
      (fun h => h1 (Option.some.inj h).symm), hs2c_other a h1 h2]
  refine ⟨?_, ?_, ?_, ?_, ?_, ?_, ?_⟩
  · refine ⟨rfl, hula.1, hula.2.1, ?_, ?_⟩
    · rw [hula.2.2.1]
      have hArep : ReprT s r ((s.node la).left) (some la) A := hLrep.2.2.2.1
      refine reprT_frame ?_ hArep
      intro a ha
      have haL : a ∈ inorder (BTree.node A la BTree.leaf) := by
        simp [inorder, ha]
      exact hagree_other a (fun h => hlaA (h ▸ ha))
        (fun h => hdisj haL (by
          rw [h]
          exact List.mem_cons.2 (Or.inr (self_mem_inorder R1 ri R2))))
        (fun h => hiL (h ▸ haL)) (hpar_out a (hmemTL a haL))
    · rw [hula.2.2.2]
      have huri : (unlink s F i).node ri =
          { s.node ri with parent := some la } := by
        rw [hu, unlinkFinish_node_other _ _ _ _ _ hri_i (hpar_out ri hriT)
          (fun h => hlari (Option.some.inj h)), hs2c_ri]
      refine reprT_frame_reparent hRrep hndR ?_ ?_ ?_ ?_ ?_
      · intro a ha hari
        exact hagree_other a
          (fun h => hdisj (self_mem_inorder A la BTree.leaf)
            (List.mem_cons.2 (Or.inr (h ▸ ha))))
          hari (fun h => hiR (h ▸ ha)) (hpar_out a (hmemTR a ha))
      · rw [huri]
      · rw [huri]
      · rw [huri]
      · rw [huri]
  · intro a ha hpa
    exact hagree_other a (fun h => ha (h ▸ hlaT)) (fun h => ha (h ▸ hriT))
      (fun h => ha (h ▸ hiT)) hpa
  · intro q hq
    have hqT : q ∉ inorder (BTree.node (BTree.node A la BTree.leaf) i
        (BTree.node R1 ri R2)) := fun hmem => hpar_out q hmem hq
    have hqi : q ≠ i := fun h => hqT (h ▸ hiT)
    have hqla : q ≠ la := fun h => hqT (h ▸ hlaT)
    have hqri : q ≠ ri := fun h => hqT (h ▸ hriT)
    have hq_eq := hs2c_other q hqla hqri
    rw [hu, hq]
    obtain ⟨hw1, hw2, hw3, hw4, hw5, hw6⟩ :=
      unlinkFinish_node_par (setParent (setRight s la (some ri)) ri (some la))
        r i (some la) hqi (fun h => hqla (Option.some.inj h).symm)
    rw [hq_eq] at hw1 hw2 hw3 hw4 hw5 hw6
    exact ⟨hw1, hw2, hw3, hw4,
      fun hql => ⟨(hw5 hql).1, (hw5 hql).2⟩,
      fun hql hqr => ⟨(hw6 hql).2, (hw6 hql).1⟩⟩
  · intro q' hq'
    rw [hu]
    cases par with
    | none =>
      rw [(unlinkFinish_base_none _ r i _).2 q' hq', setParent_base,
        setRight_base]
    | some q =>
      rw [unlinkFinish_base_par, setParent_base, setRight_base]
  · intro hpar
    rw [hu]
    cases par with
    | none => exact absurd rfl hpar
    | some q =>
      rw [unlinkFinish_base_par, setParent_base, setRight_base]
  · intro hpar _
    subst hpar
    rw [hu]
    rw [(unlinkFinish_base_none _ r i _).1]
    rfl
  · intro _ hcontra
    exact absurd rfl hcontra

/-- Root case of the removal specification with two children where the
in-order predecessor lies strictly below the left child: the predecessor
is cut out of the left subtree (its parent adopts its left child) and
spliced into the removed node's position.  The hypothesis `hIH` provides
the removal specification on the left subtree, instantiated by the
enclosing induction. -/
theorem unlink_spec_root_prevdeep {s : State} {r F i : Nat}
    {par : Option Nat} {A : BTree} {la : Nat} {B1 : BTree} {b1 : Nat}
    {B2 : BTree} {R1 : BTree} {ri : Nat} {R2 : BTree}
    (hrep : ReprT s r (some i) par
      (BTree.node (BTree.node A la (BTree.node B1 b1 B2)) i
        (BTree.node R1 ri R2)))
    (hnd : (inorder (BTree.node (BTree.node A la (BTree.node B1 b1 B2)) i
      (BTree.node R1 ri R2))).Nodup)
    (hF : sizeT (BTree.node (BTree.node A la (BTree.node B1 b1 B2)) i
      (BTree.node R1 ri R2)) ≤ F)
    (hpar_out : ∀ a ∈ inorder (BTree.node (BTree.node A la
      (BTree.node B1 b1 B2)) i (BTree.node R1 ri R2)), par ≠ some a)
    (hIH : ∀ m ∈ inorder (BTree.node A la (BTree.node B1 b1 B2)),
      UnlinkSpec s (unlink s F m) r (some la) (some i)
        (BTree.node A la (BTree.node B1 b1 B2)) m) :
    UnlinkSpec s (unlink s F i) r (some i) par
      (BTree.node (BTree.node A la (BTree.node B1 b1 B2)) i
        (BTree.node R1 ri R2)) i := by
  obtain ⟨_, hrooti, hpari, hLrep, hRrep⟩ := hrep
  have hLleft : (s.node i).left = some la := reprT_rootId hLrep
  have hRright : (s.node i).right = some ri := reprT_rootId hRrep
  rw [hLleft] at hLrep
  rw [hRright] at hRrep
  have hLrepc := hLrep
  obtain ⟨_, hrootla, hparla, hArep, hBrep⟩ := hLrepc
  have hlaright : (s.node la).right = some b1 := reprT_rootId hBrep
  rw [hlaright] at hBrep
  -- bookkeeping about duplicates and memberships
  have hndL : (inorder (BTree.node A la (BTree.node B1 b1 B2))).Nodup :=
    List.Nodup.of_append_left hnd
  have hndR : (inorder (BTree.node R1 ri R2)).Nodup :=
    (List.Nodup.of_append_right hnd).of_cons
  have hdisj : List.Disjoint (inorder (BTree.node A la (BTree.node B1 b1 B2)))
      (i :: inorder (BTree.node R1 ri R2)) :=
    List.disjoint_of_nodup_append hnd
  have hdisjLR : ∀ a, a ∈ inorder (BTree.node A la (BTree.node B1 b1 B2)) →
      a ∉ inorder (BTree.node R1 ri R2) := by
    intro a haL haR
    exact hdisj haL (List.mem_cons.2 (Or.inr haR))
  have hiL : i ∉ inorder (BTree.node A la (BTree.node B1 b1 B2)) := fun h =>
    hdisj h (by simp)
  have hiR : i ∉ inorder (BTree.node R1 ri R2) :=
    (List.nodup_cons.1 (List.Nodup.of_append_right hnd)).1
  have hdisjAB : List.Disjoint (inorder A) (la :: inorder (BTree.node B1 b1 B2)) :=
    List.disjoint_of_nodup_append hndL
  have hndB : (inorder (BTree.node B1 b1 B2)).Nodup :=
    (List.Nodup.of_append_right hndL).of_cons
  have hlaB : la ∉ inorder (BTree.node B1 b1 B2) :=
    (List.nodup_cons.1 (List.Nodup.of_append_right hndL)).1
  have hmemLB : ∀ a ∈ inorder (BTree.node B1 b1 B2),
      a ∈ inorder (BTree.node A la (BTree.node B1 b1 B2)) := by
    intro a ha
    simp [inorder] at ha ⊢
    tauto
  have hmemTL : ∀ a ∈ inorder (BTree.node A la (BTree.node B1 b1 B2)),
      a ∈ inorder (BTree.node (BTree.node A la (BTree.node B1 b1 B2)) i
        (BTree.node R1 ri R2)) := by
    intro a ha
    simp [inorder]
    simp [inorder] at ha
    tauto
  have hmemTR : ∀ a ∈ inorder (BTree.node R1 ri R2),
      a ∈ inorder (BTree.node (BTree.node A la (BTree.node B1 b1 B2)) i
        (BTree.node R1 ri R2)) := by
    intro a ha
    simp [inorder]
    simp [inorder] at ha
    tauto
  have hiT : i ∈ inorder (BTree.node (BTree.node A la (BTree.node B1 b1 B2)) i
      (BTree.node R1 ri R2)) := self_mem_inorder _ _ _
  have hlaL : la ∈ inorder (BTree.node A la (BTree.node B1 b1 B2)) :=
    self_mem_inorder _ _ _
  have hlaT := hmemTL la hlaL
  have hriT := hmemTR ri (self_mem_inorder R1 ri R2)
  have hla_i : la ≠ i := fun h => hiL (h ▸ hlaL)
  have hri_i : ri ≠ i := fun h => hiR (h ▸ self_mem_inorder R1 ri R2)
  have hlari : la ≠ ri := fun h =>
    hdisjLR la hlaL (h ▸ self_mem_inorder R1 ri R2)
  -- the in-order predecessor: rightmost node of the left child's right
  -- subtree
  have hF1 : 1 ≤ F := by
    have hF2 : sizeT (BTree.node A la (BTree.node B1 b1 B2)) + 1 +
        sizeT (BTree.node R1 ri R2) ≤ F := hF
    omega
  obtain ⟨f, rfl⟩ : ∃ f, F = f + 1 := ⟨F - 1, by omega⟩
  have hFsz : sizeT (BTree.node A la (BTree.node B1 b1 B2)) + 1 +
      sizeT (BTree.node R1 ri R2) ≤ f + 1 := hF
  have hFszL : sizeT A + 1 + sizeT (BTree.node B1 b1 B2) ≤
      sizeT (BTree.node A la (BTree.node B1 b1 B2)) := le_refl _
  obtain ⟨m, hm1, hmB, hm3, ⟨Cm, pm, hCmRep, hCmSub⟩, hm4⟩ :=
    rightmost_facts (BTree.node B1 b1 B2) f hBrep hndB (by omega)
  have hmL : m ∈ inorder (BTree.node A la (BTree.node B1 b1 B2)) := hmemLB m hmB
  have hmT := hmemTL m hmL
  have hm_la : m ≠ la := fun h => hlaB (h ▸ hmB)
  have hm_i : m ≠ i := fun h => hiL (h ▸ hmL)
  have hm_ri : m ≠ ri := fun h =>
    hdisjLR m hmL (h ▸ self_mem_inorder R1 ri R2)
  have hmroot : (s.node m).root = some r := reprT_mem_root hLrep hmL
  -- the predecessor's parent
  obtain ⟨mp, hmpL, hmpar, hmpright, hmpleft⟩ :
      ∃ mp, mp ∈ inorder (BTree.node A la (BTree.node B1 b1 B2)) ∧
        (s.node m).parent = some mp ∧ (s.node mp).right = some m ∧
        (s.node mp).left ≠ some m := by
    rcases hm4 with ⟨heq, hmp⟩ | ⟨_, mp, hmpB, hmp1, hmp2, hmp3⟩
    · refine ⟨la, hlaL, hmp, ?_, ?_⟩
      · rw [hlaright, heq]
      · intro hcontra
        have := reprT_rootId hArep
        rw [this] at hcontra
        exact hdisjAB (rootId_mem hcontra)
          (List.mem_cons.2 (Or.inr hmB))
    · exact ⟨mp, hmemLB mp hmpB, hmp1, hmp2, hmp3⟩
  have hmp_m : mp ≠ m := fun h => by
    rw [h, hm3] at hmpright
    exact Option.noConfusion hmpright
  have hmpT := hmemTL mp hmpL
  have hmp_i : mp ≠ i := fun h => hiL (h ▸ hmpL)
  have hmp_ri : mp ≠ ri := fun h =>
    hdisjLR mp hmpL (h ▸ self_mem_inorder R1 ri R2)
  -- the predecessor's left child pointer
  have hCmleft : (s.node m).left = rootId Cm := reprT_rootId hCmRep.2.2.2.1
  have hndCm : (inorder Cm ++ [m]).Nodup := hndB.sublist hCmSub
  have hmCm : m ∉ inorder Cm := by
    have := List.disjoint_of_nodup_append hndCm
    exact fun h => this h (by simp)
  have hCmem : ∀ c, (s.node m).left = some c → c ∈ inorder Cm := by
    intro c hc
    exact rootId_mem (hc ▸ hCmleft ▸ rfl : rootId Cm = some c)
  have hCmemB : ∀ c, (s.node m).left = some c →
      c ∈ inorder (BTree.node B1 b1 B2) := by
    intro c hc
    exact hCmSub.subset (List.mem_append.2 (Or.inl (hCmem c hc)))
  have hC_m : (s.node m).left ≠ some m := fun h => hmCm (hCmem m h)
  have hC_mp : (s.node m).left ≠ some mp := by
    intro h
    have hmpCm : mp ∈ inorder Cm := hCmem mp h
    have : m ∈ inorder Cm :=
      reprT_right_child_mem hCmRep.2.2.2.1 hmpCm hmpright
    exact hmCm this
  have hC_la : (s.node m).left ≠ some la := fun h =>
    hlaB (hCmemB la h)
  have hC_i : (s.node m).left ≠ some i := fun h =>
    hiL (hmemLB i (hCmemB i h))
  have hC_ri : (s.node m).left ≠ some ri := fun h =>
    hdisjLR ri (hmemLB ri (hCmemB ri h)) (self_mem_inorder R1 ri R2)
  -- the physical splice
  have hprev : prevN s (f + 1) i = some m := by
    rw [prevN, hLleft]
    dsimp only
    rw [rightmostFrom, hlaright]
    exact hm1
  have hsp : unlinkSplice s (f + 1) i =
      (some m,
        setParent
          (setLeft
            (match (s.node m).left with
             | none => setRight (setParent (setRight s m (some ri)) ri (some m))
                 mp ((s.node m).left)
             | some c => setParent (setRight (setParent (setRight s m (some ri))
                 ri (some m)) mp ((s.node m).left)) c (some mp)) m (some la))
          la (some m)) := by
    rw [unlinkSplice, hLleft, hRright]
    dsimp only
    rw [hprev]
    dsimp only
    rw [if_neg hm_la]
    have hp1 : ((setParent (setRight s m (some ri)) ri (some m)).node m).parent
        = some mp := by
      rw [setParent_parent, if_neg hm_ri, setRight_parent, hmpar]
    have hp2 : ((setParent (setRight s m (some ri)) ri (some m)).node m).left
        = (s.node m).left := by
      rw [setParent_left, setRight_left]
    rw [hp1, hp2]
  have hu : unlink s (f + 1) i =
      unlinkFinish
        (setParent
          (setLeft
            (match (s.node m).left with
             | none => setRight (setParent (setRight s m (some ri)) ri (some m))
                 mp ((s.node m).left)
             | some c => setParent (setRight (setParent (setRight s m (some ri))
                 ri (some m)) mp ((s.node m).left)) c (some mp)) m (some la))
          la (some m)) r i par (some m) := by
    simp only [unlink, hrooti, hsp, hpari]
  -- reading the splice state
  have hs4_ne : ∀ a, (s.node m).left ≠ some a →
      (match (s.node m).left with
       | none => setRight (setParent (setRight s m (some ri)) ri (some m))
           mp ((s.node m).left)
       | some c => setParent (setRight (setParent (setRight s m (some ri))
           ri (some m)) mp ((s.node m).left)) c (some mp)).node a =
      (setRight (setParent (setRight s m (some ri)) ri (some m))
        mp ((s.node m).left)).node a := by
    intro a ha
    cases hC : (s.node m).left with
    | none => rfl
    | some c =>
      exact setParent_node_ne _ _ _ (fun h => ha (by rw [hC, h]))
  have hs6_other : ∀ a, a ≠ la → a ≠ m → a ≠ ri → a ≠ mp →
      (s.node m).left ≠ some a →
      (setParent
        (setLeft
          (match (s.node m).left with
           | none => setRight (setParent (setRight s m (some ri)) ri (some m))
               mp ((s.node m).left)
           | some c => setParent (setRight (setParent (setRight s m (some ri))
               ri (some m)) mp ((s.node m).left)) c (some mp)) m (some la))
        la (some m)).node a = s.node a := by
    intro a h1 h2 h3 h4 h5
    rw [setParent_node_ne _ _ _ h1, setLeft_node_ne _ _ _ h2, hs4_ne a h5,
      setRight_node_ne _ _ _ h4, setParent_node_ne _ _ _ h3,
      setRight_node_ne _ _ _ h2]
  have hs6_m :
      (setParent
        (setLeft
          (match (s.node m).left with
           | none => setRight (setParent (setRight s m (some ri)) ri (some m))
               mp ((s.node m).left)
           | some c => setParent (setRight (setParent (setRight s m (some ri))
               ri (some m)) mp ((s.node m).left)) c (some mp)) m (some la))
        la (some m)).node m =
      { s.node m with left := some la, right := some ri } := by
    rw [setParent_node_ne _ _ _ hm_la]
    refine nodeDataExt ?_ ?_ ?_ ?_ ?_ ?_ <;>
      simp [setLeft_left, setLeft_parent, setLeft_right, setLeft_key,
        setLeft_level, setLeft_root, hs4_ne m hC_m, setRight_right,
        setRight_parent, setRight_left, setRight_key, setRight_level,
        setRight_root, setParent_parent, setParent_left, setParent_right,
        setParent_key, setParent_level, setParent_root, hmp_m.symm, hm_ri]
  -- package the splice state behind an opaque name with its read lemmas
  obtain ⟨W, hu', hW_other, hW_m, hW_la, hW_ri, hW_mp, hW_c, hW_base⟩ :
      ∃ W : State,
        unlink s (f + 1) i = unlinkFinish W r i par (some m) ∧
        (∀ a, a ≠ la → a ≠ m → a ≠ ri → a ≠ mp →
          (s.node m).left ≠ some a → W.node a = s.node a) ∧
        W.node m = { s.node m with left := some la, right := some ri } ∧
        W.node la = { s.node la with parent := some m, right := if mp = la then (s.node m).left else (s.node la).right } ∧
        W.node ri = { s.node ri with parent := some m } ∧
        (mp ≠ la → W.node mp = { s.node mp with right := (s.node m).left }) ∧
        (∀ c, (s.node m).left = some c →
          W.node c = { s.node c with parent := some mp }) ∧
        (∀ q', W.base q' = s.base q') := by
    refine ⟨setParent
        (setLeft
          (match (s.node m).left with
           | none => setRight (setParent (setRight s m (some ri)) ri (some m))
               mp ((s.node m).left)
           | some c => setParent (setRight (setParent (setRight s m (some ri))
               ri (some m)) mp ((s.node m).left)) c (some mp)) m (some la))
        la (some m), hu, hs6_other, hs6_m, ?_, ?_, ?_, ?_, ?_⟩
    · refine nodeDataExt ?_ ?_ ?_ ?_ ?_ ?_
      · rw [setParent_root, setLeft_root, hs4_ne la hC_la, setRight_root,
          setParent_root, setRight_root]
      · rw [setParent_parent, if_pos rfl]
      · rw [setParent_left, setLeft_left, if_neg (Ne.symm hm_la),
          hs4_ne la hC_la, setRight_left, setParent_left, setRight_left]
      · rw [setParent_right, setLeft_right, hs4_ne la hC_la, setRight_right]
        by_cases hmpla : mp = la
        · rw [if_pos hmpla.symm, if_pos hmpla]
        · rw [if_neg (fun h => hmpla h.symm), if_neg hmpla, setParent_right,
            setRight_right, if_neg (Ne.symm hm_la)]
      · rw [setParent_key, setLeft_key, hs4_ne la hC_la, setRight_key,
          setParent_key, setRight_key]
      · rw [setParent_level, setLeft_level, hs4_ne la hC_la, setRight_level,
          setParent_level, setRight_level]
    · refine nodeDataExt ?_ ?_ ?_ ?_ ?_ ?_
      · rw [setParent_root, setLeft_root, hs4_ne ri hC_ri, setRight_root,
          setParent_root, setRight_root]
      · rw [setParent_parent, if_neg (Ne.symm hlari), setLeft_parent,
          hs4_ne ri hC_ri, setRight_parent, setParent_parent, if_pos rfl]
      · rw [setParent_left, setLeft_left, if_neg (Ne.symm hm_ri),
          hs4_ne ri hC_ri, setRight_left, setParent_left, setRight_left]
      · rw [setParent_right, setLeft_right, hs4_ne ri hC_ri, setRight_right,
          if_neg (Ne.symm hmp_ri), setParent_right, setRight_right,
          if_neg (Ne.symm hm_ri)]
      · rw [setParent_key, setLeft_key, hs4_ne ri hC_ri, setRight_key,
          setParent_key, setRight_key]
      · rw [setParent_level, setLeft_level, hs4_ne ri hC_ri, setRight_level,
          setParent_level, setRight_level]
    · intro hmpla
      refine nodeDataExt ?_ ?_ ?_ ?_ ?_ ?_
      · rw [setParent_root, setLeft_root, hs4_ne mp hC_mp, setRight_root,
          setParent_root, setRight_root]
      · rw [setParent_parent, if_neg hmpla, setLeft_parent, hs4_ne mp hC_mp,
          setRight_parent, setParent_parent, if_neg hmp_ri, setRight_parent]
      · rw [setParent_left, setLeft_left, if_neg hmp_m, hs4_ne mp hC_mp,
          setRight_left, setParent_left, setRight_left]
      · rw [setParent_right, setLeft_right, hs4_ne mp hC_mp, setRight_right,
          if_pos rfl]
      · rw [setParent_key, setLeft_key, hs4_ne mp hC_mp, setRight_key,
          setParent_key, setRight_key]
      · rw [setParent_level, setLeft_level, hs4_ne mp hC_mp, setRight_level,
          setParent_level, setRight_level]
    · intro c hc
      have hcla : c ≠ la := fun h => hC_la (h ▸ hc)
      have hcm : c ≠ m := fun h => hC_m (h ▸ hc)
      have hcmp2 : c ≠ mp := fun h => hC_mp (h ▸ hc)
      refine nodeDataExt ?_ ?_ ?_ ?_ ?_ ?_
      · rw [setParent_root, setLeft_root, hc]
        dsimp only
        rw [setParent_root, setRight_root, setParent_root, setRight_root]
      · rw [setParent_parent, if_neg hcla, setLeft_parent, hc]
        dsimp only
        rw [setParent_parent, if_pos rfl]
      · rw [setParent_left, setLeft_left, if_neg hcm, hc]
        dsimp only
        rw [setParent_left, setRight_left, setParent_left, setRight_left]
      · rw [setParent_right, setLeft_right, hc]
        dsimp only
        rw [setParent_right, setRight_right, if_neg hcmp2, setParent_right,
          setRight_right, if_neg hcm]
      · rw [setParent_key, setLeft_key, hc]
        dsimp only
        rw [setParent_key, setRight_key, setParent_key, setRight_key]
      · rw [setParent_level, setLeft_level, hc]
        dsimp only
        rw [setParent_level, setRight_level, setParent_level, setRight_level]
    · intro q'
      cases hCb : (s.node m).left <;> rfl
  have hparm_ne : par ≠ some m := hpar_out m hmT
  -- reads of the final state
  have hU_other : ∀ a, a ≠ i → par ≠ some a → a ≠ la → a ≠ m → a ≠ ri →
      a ≠ mp → (s.node m).left ≠ some a →
      (unlink s (f + 1) i).node a = s.node a := by
    intro a h1 h2 h3 h4 h5 h6 h7
    rw [hu', unlinkFinish_node_other W r i par (some m) h1 h2
      (fun hq => h4 (Option.some.inj hq).symm)]
    exact hW_other a h3 h4 h5 h6 h7
  have hU_m_root : ((unlink s (f + 1) i).node m).root = some r := by
    rw [hu', (unlinkFinish_node_nl W r i par hm_i hparm_ne).1, hW_m]
    exact hmroot
  have hU_m_parent : ((unlink s (f + 1) i).node m).parent = par := by
    rw [hu', (unlinkFinish_node_nl W r i par hm_i hparm_ne).2.1,
      hW_other i (Ne.symm hla_i) (Ne.symm hm_i) (Ne.symm hri_i)
        (Ne.symm hmp_i) hC_i]
    exact hpari
  have hU_m_left : ((unlink s (f + 1) i).node m).left = some la := by
    rw [hu', (unlinkFinish_node_nl W r i par hm_i hparm_ne).2.2.1, hW_m]
  have hU_m_right : ((unlink s (f + 1) i).node m).right = some ri := by
    rw [hu', (unlinkFinish_node_nl W r i par hm_i hparm_ne).2.2.2, hW_m]
  have hU_la : (unlink s (f + 1) i).node la = W.node la := by
    rw [hu']
    exact unlinkFinish_node_other W r i par (some m) hla_i
      (hpar_out la hlaT) (fun h => hm_la (Option.some.inj h))
  have hU_ri : (unlink s (f + 1) i).node ri = W.node ri := by
    rw [hu']
    exact unlinkFinish_node_other W r i par (some m) hri_i
      (hpar_out ri hriT) (fun h => hm_ri (Option.some.inj h))
  -- reads of the state after the recursive removal of the predecessor
  have humeq : unlink s (f + 1) m =
      unlinkFinish s r m (some mp) ((s.node m).left) := by
    have h := unlink_no_right s (f + 1) hmroot hm3
    rw [hmpar] at h
    exact h
  have hum_other : ∀ a, a ≠ m → a ≠ mp → (s.node m).left ≠ some a →
      (unlink s (f + 1) m).node a = s.node a := by
    intro a h1 h2 h3
    rw [humeq]
    exact unlinkFinish_node_other s r m (some mp) ((s.node m).left) h1
      (fun h => h2 (Option.some.inj h).symm) h3
  have hum_mp : (unlink s (f + 1) m).node mp =
      { s.node mp with right := (s.node m).left } := by
    rw [humeq]
    obtain ⟨h1, h2, h3, h4, _, h6⟩ :=
      unlinkFinish_node_par s r m ((s.node m).left) hmp_m hC_mp
    obtain ⟨h7, h8⟩ := h6 hmpleft
    exact nodeDataExt h1 h2 h7 h8 h3 h4
  have hum_c : ∀ c, (s.node m).left = some c →
      (unlink s (f + 1) m).node c = { s.node c with parent := some mp } := by
    intro c hc
    have hcm : c ≠ m := fun h => hC_m (h ▸ hc)
    have hcmp : (some mp : Option Nat) ≠ some c :=
      fun h => hC_mp (hc.trans (congrArg some (Option.some.inj h).symm))
    rw [humeq, hc]
    obtain ⟨h1, h2, h3, h4⟩ := unlinkFinish_node_nl s r m (some mp) hcm hcmp
    obtain ⟨h5, h6⟩ := unlinkFinish_keylevel s r m (some mp) (some c) c
    exact nodeDataExt h1 (h2.trans hmpar) h3 h4 h5 h6
  -- comparisons of the two states at the promoted left child
  have hcmp_la_root : ((unlink s (f + 1) i).node la).root =
      ((unlink s (f + 1) m).node la).root := by
    rw [hU_la, hW_la]
    by_cases hmpla : mp = la
    · subst hmpla
      rw [hum_mp]
    · rw [hum_other la (Ne.symm hm_la) (fun h => hmpla h.symm) hC_la]
  have hcmp_la_left : ((unlink s (f + 1) i).node la).left =
      ((unlink s (f + 1) m).node la).left := by
    rw [hU_la, hW_la]
    by_cases hmpla : mp = la
    · subst hmpla
      rw [hum_mp]
    · rw [hum_other la (Ne.symm hm_la) (fun h => hmpla h.symm) hC_la]
  have hcmp_la_right : ((unlink s (f + 1) i).node la).right =
      ((unlink s (f + 1) m).node la).right := by
    rw [hU_la, hW_la]
    by_cases hmpla : mp = la
    · subst hmpla
      rw [hum_mp]
      simp
    · rw [if_neg hmpla,
        hum_other la (Ne.symm hm_la) (fun h => hmpla h.symm) hC_la]
  have hU_la_parent : ((unlink s (f + 1) i).node la).parent = some m := by
    rw [hU_la, hW_la]
  -- the shape of the tree after removal
  obtain ⟨B2x, mx, hBex⟩ := extractMax_node B1 b1 B2
  have hszB : sizeT (BTree.node B1 b1 B2) ≤ f + 1 := by omega
  have hglB : (inorder (BTree.node B1 b1 B2)).getLast? = some m := by
    rw [← rightmostFrom_eq_getLast (BTree.node B1 b1 B2) f hBrep hszB]
    exact hm1
  have hglB2 : (inorder (BTree.node B1 b1 B2)).getLast? = some mx := by
    rw [extractMax_inorder hBex]
    simp
  have hmx : mx = m := Option.some.inj (hglB2.symm.trans hglB)
  subst hmx
  have hLex : extractMax (BTree.node A la (BTree.node B1 b1 B2)) =
      some (BTree.node A la B2x, mx) := by
    rw [extractMax, hBex]
  have hremL : removeT (BTree.node A la (BTree.node B1 b1 B2)) mx =
      BTree.node A la B2x := extractMax_removeT hndL hLex
  have hinL : inorder (BTree.node A la (BTree.node B1 b1 B2)) =
      inorder (BTree.node A la B2x) ++ [mx] := extractMax_inorder hLex
  have hndL2 : (inorder (BTree.node A la B2x)).Nodup := by
    have h := hndL
    rw [hinL] at h
    exact List.Nodup.of_append_left h
  have hmemL2 : ∀ a ∈ inorder (BTree.node A la B2x),
      a ∈ inorder (BTree.node A la (BTree.node B1 b1 B2)) := by
    intro a ha
    rw [hinL]
    exact List.mem_append.2 (Or.inl ha)
  have hL2_ne_m : ∀ a ∈ inorder (BTree.node A la B2x), a ≠ mx := by
    intro a ha h
    have hnd2 := hndL
    rw [hinL] at hnd2
    exact List.disjoint_of_nodup_append hnd2 ha (by simp [h])
  have hum_rep : ReprT (unlink s (f + 1) mx) r (some la) (some i)
      (BTree.node A la B2x) := by
    have h := (hIH mx hmL).1
    rw [hremL] at h
    exact h
  have hT' : removeT (BTree.node (BTree.node A la (BTree.node B1 b1 B2)) i
      (BTree.node R1 ri R2)) i =
      BTree.node (BTree.node A la B2x) mx (BTree.node R1 ri R2) := by
    rw [removeT, if_pos rfl, dropRoot]
    rw [hLex]
  -- assemble the specification
  unfold UnlinkSpec
  rw [hT']
  refine ⟨?_, ?_, ?_, ?_, ?_, ?_, ?_⟩
  · rw [reprT_node_iff]
    refine ⟨rfl, hU_m_root, hU_m_parent, ?_, ?_⟩
    · rw [hU_m_left]
      refine reprT_frame_reparent hum_rep hndL2 ?_ hcmp_la_root hcmp_la_left
        hcmp_la_right hU_la_parent
      intro a ha hala
      have haL := hmemL2 a ha
      have ham : a ≠ mx := hL2_ne_m a ha
      have hai : a ≠ i := fun h => hiL (h ▸ haL)
      have hari : a ≠ ri := fun h =>
        hdisjLR a haL (h ▸ self_mem_inorder R1 ri R2)
      have hapar : par ≠ some a := hpar_out a (hmemTL a haL)
      by_cases hamp : a = mp
      · subst hamp
        rw [hu', unlinkFinish_node_other W r i par (some mx) hai hapar
          (fun h => ham (Option.some.inj h).symm), hW_mp hala, hum_mp]
      · by_cases hac : (s.node mx).left = some a
        · rw [hu', unlinkFinish_node_other W r i par (some mx) hai hapar
            (fun h => ham (Option.some.inj h).symm), hW_c a hac,
            hum_c a hac]
        · rw [hum_other a ham hamp hac]
          exact hU_other a hai hapar hala ham hari hamp hac
    · rw [hU_m_right]
      refine reprT_frame_reparent hRrep hndR ?_ ?_ ?_ ?_ ?_
      · intro a ha hari
        have hai : a ≠ i := fun h => hiR (h ▸ ha)
        have hala : a ≠ la := fun h => hdisjLR la hlaL (h ▸ ha)
        have ham : a ≠ mx := fun h => hdisjLR mx hmL (h ▸ ha)
        have hamp : a ≠ mp := fun h => hdisjLR mp hmpL (h ▸ ha)
        have hac : (s.node mx).left ≠ some a := fun h =>
          hdisjLR a (hmemLB a (hCmemB a h)) ha
        exact hU_other a hai (hpar_out a (hmemTR a ha)) hala ham hari hamp hac
      · rw [hU_ri, hW_ri]
      · rw [hU_ri, hW_ri]
      · rw [hU_ri, hW_ri]
      · rw [hU_ri, hW_ri]
  · intro a ha hpar2
    exact hU_other a (fun h => ha (h ▸ hiT)) hpar2 (fun h => ha (h ▸ hlaT))
      (fun h => ha (h ▸ hmT)) (fun h => ha (h ▸ hriT))
      (fun h => ha (h ▸ hmpT))
      (fun h => ha (hmemTL a (hmemLB a (hCmemB a h))))
  · intro q hq
    have hqT : q ∉ inorder (BTree.node (BTree.node A la
        (BTree.node B1 b1 B2)) i (BTree.node R1 ri R2)) :=
      fun hmem => hpar_out q hmem hq
    have hq_i : q ≠ i := fun h => hqT (h ▸ hiT)
    have hq_la : q ≠ la := fun h => hqT (h ▸ hlaT)
    have hq_m : q ≠ mx := fun h => hqT (h ▸ hmT)
    have hq_ri : q ≠ ri := fun h => hqT (h ▸ hriT)
    have hq_mp : q ≠ mp := fun h => hqT (h ▸ hmpT)
    have hq_c : (s.node mx).left ≠ some q := fun h =>
      hqT (hmemTL q (hmemLB q (hCmemB q h)))
    have hqnl : (some mx : Option Nat) ≠ some q :=
      fun h => hq_m (Option.some.inj h).symm
    have hWq : W.node q = s.node q := hW_other q hq_la hq_m hq_ri hq_mp hq_c
    obtain ⟨hp1, hp2, hp3, hp4, hp5, hp6⟩ :=
      unlinkFinish_node_par W r i (some mx) hq_i hqnl
    rw [hq] at hu'
    refine ⟨?_, ?_, ?_, ?_, ?_, ?_⟩
    · rw [hu', hp1, hWq]
    · rw [hu', hp2, hWq]
    · rw [hu', hp3, hWq]
    · rw [hu', hp4, hWq]
    · intro hsl
      have hsl' : (W.node q).left = some i := by rw [hWq]; exact hsl
      obtain ⟨ha1, ha2⟩ := hp5 hsl'
      exact ⟨by rw [hu', ha1]; rfl, by rw [hu', ha2, hWq]⟩
    · intro hsl _
      have hsl' : (W.node q).left ≠ some i := by rw [hWq]; exact hsl
      obtain ⟨ha1, ha2⟩ := hp6 hsl'
      exact ⟨by rw [hu', ha2]; rfl, by rw [hu', ha1, hWq]⟩
  · intro q' hq'
    rw [hu']
    cases par with
    | none => rw [(unlinkFinish_base_none W r i (some mx)).2 q' hq',
        hW_base q']
    | some p => rw [unlinkFinish_base_par W r i p (some mx), hW_base q']
  · intro hpar2
    cases par with
    | none => exact absurd rfl hpar2
    | some p => rw [hu', unlinkFinish_base_par W r i p (some mx), hW_base r]
  · intro hpar2 _
    subst hpar2
    rw [hu', (unlinkFinish_base_none W r i (some mx)).1]
    rfl
  · intro _ hcontra
    exact absurd rfl hcontra

/-- The removal specification, by structural induction over the
represented subtree: removing any member `i` of a represented tree
produces the layout of `removeT T i`, touches no node outside the tree
except the context parent's child pointer, and rewrites the base pointer
exactly when the tree's top node was removed. -/
theorem unlink_spec {s : State} {r F : Nat} :
    ∀ (T : BTree) {p par : Option Nat} {i : Nat},
      ReprT s r p par T → (inorder T).Nodup → i ∈ inorder T →
      sizeT T ≤ F → (∀ a ∈ inorder T, par ≠ some a) →
      UnlinkSpec s (unlink s F i) r p par T i := by
  intro T
  induction T with
  | leaf =>
    intro p par i _ _ hi _ _
    simp [inorder] at hi
  | node L j R ihL ihR =>
    intro p par i hrep hnd hi hF hpar_out
    obtain ⟨hp, hrootj, hparj, hLrep, hRrep⟩ := hrep
    subst hp
    have hszLR : sizeT L + 1 + sizeT R ≤ F := hF
    have hndL : (inorder L).Nodup := List.Nodup.of_append_left hnd
    have hndjR : (j :: inorder R).Nodup := List.Nodup.of_append_right hnd
    have hndR : (inorder R).Nodup := hndjR.of_cons
    have hdisj : List.Disjoint (inorder L) (j :: inorder R) :=
      List.disjoint_of_nodup_append hnd
    have hjL : j ∉ inorder L := fun h => hdisj h (List.mem_cons_self _ _)
    have hjR : j ∉ inorder R := (List.nodup_cons.1 hndjR).1
    have hdisjLR : ∀ a, a ∈ inorder L → a ∉ inorder R := fun a haL haR =>
      hdisj haL (List.mem_cons.2 (Or.inr haR))
    rcases List.mem_append.1 hi with hiL2 | hjmem
    · -- the removed node lies inside the left subtree
      have hij : i ≠ j := fun h => hjL (h ▸ hiL2)
      have hspecL := ihL hLrep hndL hiL2 (by omega)
        (fun a ha h2 => hjL (by rw [Option.some.inj h2]; exact ha))
      obtain ⟨hrep1, hout1, hq1, hbase1, hbase5, _, _⟩ := hspecL
      obtain ⟨hjroot, hjpar, _, _, hjguard, _⟩ := hq1 j rfl
      obtain ⟨hjleft, hjright⟩ := hjguard rfl
      have hremR : removeT R i = R := removeT_not_mem R (hdisjLR i hiL2)
      have hTr : removeT (BTree.node L j R) i =
          BTree.node (removeT L i) j R := by
        rw [removeT, if_neg (fun h => hij h.symm), hremR]
      unfold UnlinkSpec
      rw [hTr]
      refine ⟨?_, ?_, ?_, ?_, ?_, ?_, ?_⟩
      · rw [reprT_node_iff]
        refine ⟨rfl, ?_, ?_, ?_, ?_⟩
        · rw [hjroot]; exact hrootj
        · rw [hjpar]; exact hparj
        · rw [hjleft]; exact hrep1
        · rw [hjright]
          refine reprT_frame ?_ hRrep
          intro a ha
          exact hout1 a (fun h => hdisjLR a h ha)
            (fun h2 => hjR (by rw [Option.some.inj h2]; exact ha))
      · intro a ha hpar2
        have haL : a ∉ inorder L := fun h =>
          ha (List.mem_append.2 (Or.inl h))
        have haj : (some j : Option Nat) ≠ some a := fun h2 =>
          ha (by rw [← Option.some.inj h2]; exact self_mem_inorder L j R)
        exact hout1 a haL haj
      · intro q hq
        have hqT : q ∉ inorder (BTree.node L j R) :=
          fun hmem => hpar_out q hmem hq
        have hqs : (unlink s F i).node q = s.node q :=
          hout1 q (fun h => hqT (List.mem_append.2 (Or.inl h)))
            (fun h2 => hqT (by rw [← Option.some.inj h2]; exact self_mem_inorder L j R))
        refine ⟨by rw [hqs], by rw [hqs], by rw [hqs], by rw [hqs], ?_, ?_⟩
        · intro hl
          exact ⟨by rw [hqs]; exact hl, by rw [hqs]⟩
        · intro hl hr
          exact ⟨by rw [hqs]; exact hr, by rw [hqs]⟩
      · exact hbase1
      · intro _
        exact hbase5 (fun h => Option.noConfusion h)
      · intro _ h2
        exact absurd (Option.some.inj h2).symm hij
      · intro _ _
        exact hbase5 (fun h => Option.noConfusion h)
    · rcases List.mem_cons.1 hjmem with heq | hiR2
      · -- the removed node is the subtree's top: four shapes
        subst heq
        cases L with
        | leaf =>
          exact unlink_spec_root_noleft ⟨rfl, hrootj, hparj, hLrep, hRrep⟩
            hnd hpar_out
        | node L1 la L2 =>
          cases R with
          | leaf =>
            exact unlink_spec_root_noright ⟨rfl, hrootj, hparj, hLrep, hRrep⟩
              hnd hpar_out
          | node R1 ri R2 =>
            cases L2 with
            | leaf =>
              exact unlink_spec_root_prevdirect
                ⟨rfl, hrootj, hparj, hLrep, hRrep⟩ hnd hpar_out
            | node B1 b1 B2 =>
              refine unlink_spec_root_prevdeep
                ⟨rfl, hrootj, hparj, hLrep, hRrep⟩ hnd hF hpar_out ?_
              intro mq hmq
              have hlaleft := reprT_rootId hLrep
              have hLrep' := hLrep
              rw [hlaleft] at hLrep'
              exact ihL hLrep' hndL hmq (by omega)
                (fun a ha h2 => hjL (by rw [Option.some.inj h2]; exact ha))
      · -- the removed node lies inside the right subtree
        cases R with
        | leaf => simp [inorder] at hiR2
        | node R1 ri R2 =>
          have hij : i ≠ j := fun h => hjR (h ▸ hiR2)
          have hspecR := ihR hRrep hndR hiR2 (by omega)
            (fun a ha h2 => hjR (by rw [Option.some.inj h2]; exact ha))
          obtain ⟨hrep1, hout1, hq1, hbase1, hbase5, _, _⟩ := hspecR
          obtain ⟨hjroot, hjpar, _, _, _, hjguard2⟩ := hq1 j rfl
          have hRptr : (s.node j).right = some ri := reprT_rootId hRrep
          have hneLR : (s.node j).left ≠ (s.node j).right := by
            have hLptr : (s.node j).left = rootId L := reprT_rootId hLrep
            rw [hRptr, hLptr]
            cases L with
            | leaf => simp [rootId]
            | node L1 la L2 =>
              have hlari : la ≠ ri := fun h =>
                hdisjLR la (self_mem_inorder L1 la L2)
                  (h ▸ self_mem_inorder R1 ri R2)
              simpa [rootId] using hlari
          obtain ⟨hjright2, hjleft2⟩ := hjguard2 hneLR rfl
          have hremL2 : removeT L i = L :=
            removeT_not_mem L (fun h => hdisjLR i h hiR2)
          have hTr : removeT (BTree.node L j (BTree.node R1 ri R2)) i =
              BTree.node L j (removeT (BTree.node R1 ri R2) i) := by
            rw [removeT, if_neg (fun h => hij h.symm), hremL2]
          unfold UnlinkSpec
          rw [hTr]
          refine ⟨?_, ?_, ?_, ?_, ?_, ?_, ?_⟩
          · rw [reprT_node_iff]
            refine ⟨rfl, ?_, ?_, ?_, ?_⟩
            · rw [hjroot]; exact hrootj
            · rw [hjpar]; exact hparj
            · rw [hjleft2]
              refine reprT_frame ?_ hLrep
              intro a ha
              exact hout1 a (fun h => hdisjLR a ha h)
                (fun h2 => hjL (by rw [Option.some.inj h2]; exact ha))
            · rw [hjright2]; exact hrep1
          · intro a ha hpar2
            have haR : a ∉ inorder (BTree.node R1 ri R2) := fun h =>
              ha (List.mem_append.2 (Or.inr (List.mem_cons.2 (Or.inr h))))
            have haj : (some j : Option Nat) ≠ some a := fun h2 =>
              ha (by rw [← Option.some.inj h2]; exact self_mem_inorder L j (BTree.node R1 ri R2))
            exact hout1 a haR haj
          · intro q hq
            have hqT : q ∉ inorder (BTree.node L j (BTree.node R1 ri R2)) :=
              fun hmem => hpar_out q hmem hq
            have hqs : (unlink s F i).node q = s.node q :=
              hout1 q
                (fun h => hqT (List.mem_append.2
                  (Or.inr (List.mem_cons.2 (Or.inr h)))))
                (fun h2 => hqT (by rw [← Option.some.inj h2]; exact self_mem_inorder L j (BTree.node R1 ri R2)))
            refine ⟨by rw [hqs], by rw [hqs], by rw [hqs], by rw [hqs],
              ?_, ?_⟩
            · intro hl
              exact ⟨by rw [hqs]; exact hl, by rw [hqs]⟩
            · intro hl hr
              exact ⟨by rw [hqs]; exact hr, by rw [hqs]⟩
          · exact hbase1
          · intro _
            exact hbase5 (fun h => Option.noConfusion h)
          · intro _ h2
            exact absurd (Option.some.inj h2).symm hij
          · intro _ _
            exact hbase5 (fun h => Option.noConfusion h)

theorem addDescend_base :
    ∀ (F : Nat) (s : State) (i cur : Nat),
      (addDescend s i F cur).base = s.base := by
  intro F
  induction F with
  | zero =>
    intro s i cur
    rw [addDescend]
    dsimp only
    split
    · cases h : (s.node cur).left with
      | none => rfl
      | some l => rfl
    · cases h : (s.node cur).right with
      | none => rfl
      | some rt => rfl
  | succ F' ih =>
    intro s i cur
    rw [addDescend]
    dsimp only
    split
    · cases h : (s.node cur).left with
      | none => rfl
      | some l => exact ih s i l
    · cases h : (s.node cur).right with
      | none => rfl
      | some rt => exact ih s i rt

/-- The descent loop of `TreeInRoot::add` writes only to nodes of the
subtree it descends into and to the inserted node itself. -/
theorem addDescend_outside {s : State} {r : Nat} :
    ∀ {T : BTree} {cur : Nat} {par : Option Nat} (F : Nat) {i : Nat},
      ReprT s r (some cur) par T →
      ∀ a, a ∉ inorder T → a ≠ i →
        (addDescend s i F cur).node a = s.node a := by
  intro T
  induction T with
  | leaf =>
    intro cur par F i h
    exact absurd h (by simp [reprT_leaf_iff])
  | node L j R ihL ihR =>
    intro cur par F i h a haT hai
    obtain ⟨hpj, _, _, hL, hR⟩ := h
    obtain rfl : cur = j := Option.some.inj hpj
    have hacur : a ≠ cur := fun hh => haT (hh ▸ self_mem_inorder L cur R)
    rw [addDescend]
    split
    · cases hL2 : (s.node cur).left with
      | none =>
        rw [setParent_node_ne _ _ _ hai, setLeft_node_ne _ _ _ hacur]
      | some l =>
        cases F with
        | zero => rfl
        | succ F' =>
          rw [hL2] at hL
          exact ihL F' hL a (fun hh => haT (List.mem_append.2 (Or.inl hh)))
            hai
    · cases hR2 : (s.node cur).right with
      | none =>
        rw [setParent_node_ne _ _ _ hai, setRight_node_ne _ _ _ hacur]
      | some rt =>
        cases F with
        | zero => rfl
        | succ F' =>
          rw [hR2] at hR
          exact ihR F' hR a
            (fun hh => haT (List.mem_append.2
              (Or.inr (List.mem_cons.2 (Or.inr hh))))) hai

/-- C8: adding a node already attached to a tree to that same tree is a
no-op on the whole state; adding a node of tree `A` to a different tree
`B` first detaches it from `A`, so afterwards `A` lays out exactly its
old member list with the node erased (in particular it no longer contains
the node). -/
theorem c8_readd_noop_and_move_detaches {s : State} {A B F i : Nat}
    {TA TB : BTree}
    (hA : ReprT s A (s.base A) none TA)
    (hB : ReprT s B (s.base B) none TB)
    (hAB : A ≠ B)
    (hndA : (inorder TA).Nodup)
    (hi : i ∈ inorder TA)
    (hFA : sizeT TA ≤ F) :
    rootAddPlain s F A i = s ∧
    (∃ TA2, ReprT (rootAddPlain s F B i) A
        ((rootAddPlain s F B i).base A) none TA2 ∧
      inorder TA2 = (inorder TA).erase i ∧ i ∉ inorder TA2) := by
  have hrootA : (s.node i).root = some A := reprT_mem_root hA hi
  constructor
  · rw [rootAddPlain, if_pos hrootA]
  · have hspec := unlink_spec TA hA hndA hi hFA
      (fun a _ h => Option.noConfusion h)
    obtain ⟨hrep1, hout1, _, hbase4, _, hbase6, hbase7⟩ := hspec
    have hdisjAB : ∀ a ∈ inorder TA, a ∉ inorder TB := fun a haA haB =>
      hAB (Option.some.inj
        ((reprT_mem_root hA haA).symm.trans (reprT_mem_root hB haB)))
    have hadd : rootAddPlain s F B i = attach (unlink s F i) F B i := by
      rw [rootAddPlain,
        if_neg (fun h => hAB (Option.some.inj (hrootA.symm.trans h))),
        if_pos (by rw [hrootA]; exact fun h => Option.noConfusion h)]
      rfl
    have hBrep0 : ReprT (unlink s F i) B (s.base B) none TB := by
      refine reprT_frame ?_ hB
      intro a ha
      exact hout1 a (fun h => hdisjAB a h ha) (fun h => Option.noConfusion h)
    have hbB0 : (unlink s F i).base B = s.base B :=
      hbase4 B (fun h => hAB h.symm)
    cases TA with
    | leaf => simp [inorder] at hi
    | node L0 j0 R0 =>
      have hbA : s.base A = some j0 := hA.1
      have hbase0 : (unlink s F i).base A =
          rootId (removeT (BTree.node L0 j0 R0) i) := by
        by_cases hji : j0 = i
        · exact hbase6 rfl
            (by rw [show rootId (BTree.node L0 j0 R0) = some j0 from rfl,
              hji])
        · have h7 := hbase7 rfl (fun h => hji (Option.some.inj h))
          rw [h7, hbA, removeT, if_neg hji]
          rfl
      have hierase := inorder_removeT (BTree.node L0 j0 R0) hndA hi
      have hinotin : i ∉ inorder (removeT (BTree.node L0 j0 R0) i) := by
        rw [hierase]
        intro h
        exact ((List.Nodup.mem_erase_iff hndA).1 h).1 rfl
      have hbaseU : (rootAddPlain s F B i).base A = (unlink s F i).base A := by
        rw [hadd, attach]
        rw [updNode_base]
        cases hb0 : (unlink s F i).base B with
        | none =>
          rw [setParent_base, setBase_base, if_neg hAB]
        | some b => rw [addDescend_base]
      refine ⟨removeT (BTree.node L0 j0 R0) i, ?_, hierase, hinotin⟩
      rw [hbaseU, hbase0]
      refine reprT_frame ?_ hrep1
      intro a ha
      have haTA : a ∈ inorder (BTree.node L0 j0 R0) := by
        rw [hierase] at ha
        exact List.mem_of_mem_erase ha
      have hai : a ≠ i := by
        rw [hierase] at ha
        exact ((List.Nodup.mem_erase_iff hndA).1 ha).1
      rw [hadd, attach]
      rw [updNode_node_ne _ _ _ hai]
      cases hb0 : (unlink s F i).base B with
      | none =>
        rw [setParent_node_ne _ _ _ hai, setBase_node]
      | some b =>
        have hsbB : s.base B = some b := by rw [← hbB0]; exact hb0
        have hBrep0' : ReprT (unlink s F i) B (some b) none TB := by
          rw [← hsbB]
          exact hBrep0
        exact addDescend_outside F hBrep0' a (fun h => hdisjAB a haTA h) hai

/-- C10: `addTo` with a null root pointer acts as a removal: it equals
the node's `remove`, the node ends fully detached (no root, parent or
children), the state does change, and the node's old tree afterwards lays
out its member list with the node erased. -/
theorem c10_addTo_null_detaches {s : State} {r F i : Nat} {T : BTree}
    (hrep : ReprT s r (s.base r) none T)
    (hnd : (inorder T).Nodup)
    (hi : i ∈ inorder T)
    (hF : sizeT T ≤ F) :
    addToPtr s F i none = nodeRemovePlain s F i ∧
    ((addToPtr s F i none).node i).root = none ∧
    ((addToPtr s F i none).node i).parent = none ∧
    ((addToPtr s F i none).node i).left = none ∧
    ((addToPtr s F i none).node i).right = none ∧
    addToPtr s F i none ≠ s ∧
    (∃ T2, ReprT (addToPtr s F i none) r
        ((addToPtr s F i none).base r) none T2 ∧
      inorder T2 = (inorder T).erase i ∧ i ∉ inorder T2) := by
  have hroot : (s.node i).root = some r := reprT_mem_root hrep hi
  have hcl := unlink_clears s F hroot
  have hspec := unlink_spec T hrep hnd hi hF (fun a _ h => Option.noConfusion h)
  obtain ⟨hrep1, _, _, _, _, hbase6, hbase7⟩ := hspec
  have heq : addToPtr s F i none = unlink s F i := rfl
  refine ⟨rfl, ?_, ?_, ?_, ?_, ?_, ?_⟩
  · rw [heq]
    exact hcl.1
  · rw [heq]
    exact hcl.2.1
  · rw [heq]
    exact hcl.2.2.1
  · rw [heq]
    exact hcl.2.2.2
  · intro hcontra
    rw [heq] at hcontra
    have h1 := hcl.1
    rw [hcontra, hroot] at h1
    exact Option.noConfusion h1
  · cases T with
    | leaf => simp [inorder] at hi
    | node L0 j0 R0 =>
      have hbA : s.base r = some j0 := hrep.1
      have hbase0 : (unlink s F i).base r =
          rootId (removeT (BTree.node L0 j0 R0) i) := by
        by_cases hji : j0 = i
        · exact hbase6 rfl
            (by rw [show rootId (BTree.node L0 j0 R0) = some j0 from rfl,
              hji])
        · have h7 := hbase7 rfl (fun h => hji (Option.some.inj h))
          rw [h7, hbA, removeT, if_neg hji]
          rfl
      refine ⟨removeT (BTree.node L0 j0 R0) i, ?_,
        inorder_removeT _ hnd hi, ?_⟩
      · rw [heq, hbase0]
        exact hrep1
      · rw [inorder_removeT _ hnd hi]
        intro h
        exact ((List.Nodup.mem_erase_iff hnd).1 h).1 rfl

theorem c8_readd_noop_and_move_detaches_witness :
    rootAddPlain (addAllPlain [2, 1, 3]) 10 0 1 = addAllPlain [2, 1, 3] ∧
    (∃ TA2, ReprT (rootAddPlain (addAllPlain [2, 1, 3]) 10 1 1) 0
        ((rootAddPlain (addAllPlain [2, 1, 3]) 10 1 1).base 0) none TA2 ∧
      inorder TA2 = (inorder (BTree.node (BTree.node BTree.leaf 1 BTree.leaf)
        2 (BTree.node BTree.leaf 3 BTree.leaf))).erase 1 ∧
      1 ∉ inorder TA2) :=
  @c8_readd_noop_and_move_detaches (addAllPlain [2, 1, 3]) 0 1 10 1
    (BTree.node (BTree.node BTree.leaf 1 BTree.leaf) 2
      (BTree.node BTree.leaf 3 BTree.leaf)) BTree.leaf
    (by decide) (by decide) (by decide) (by decide) (by decide) (by decide)

theorem c10_addTo_null_detaches_witness :
    addToPtr (addAllPlain [2, 1, 3]) 10 1 none =
      nodeRemovePlain (addAllPlain [2, 1, 3]) 10 1 ∧
    ((addToPtr (addAllPlain [2, 1, 3]) 10 1 none).node 1).root = none ∧
    ((addToPtr (addAllPlain [2, 1, 3]) 10 1 none).node 1).parent = none ∧
    ((addToPtr (addAllPlain [2, 1, 3]) 10 1 none).node 1).left = none ∧
    ((addToPtr (addAllPlain [2, 1, 3]) 10 1 none).node 1).right = none ∧
    addToPtr (addAllPlain [2, 1, 3]) 10 1 none ≠ addAllPlain [2, 1, 3] ∧
    (∃ T2, ReprT (addToPtr (addAllPlain [2, 1, 3]) 10 1 none) 0
        ((addToPtr (addAllPlain [2, 1, 3]) 10 1 none).base 0) none T2 ∧
      inorder T2 = (inorder (BTree.node (BTree.node BTree.leaf 1 BTree.leaf)
        2 (BTree.node BTree.leaf 3 BTree.leaf))).erase 1 ∧
      1 ∉ inorder T2) :=
  @c10_addTo_null_detaches (addAllPlain [2, 1, 3]) 0 10 1
    (BTree.node (BTree.node BTree.leaf 1 BTree.leaf) 2
      (BTree.node BTree.leaf 3 BTree.leaf))
    (by decide) (by decide) (by decide) (by decide)

end TreeIn
